import Mathlib

/-!
Verification of the hybrid memory retrieval engine (repository, retrievers,
stores) against its natural-language specification.

The Python source is shallowly embedded: Python `dict`s become association
lists with in-place-update insertion (preserving insertion order, as Python
dicts do), float scores become `ℚ`, `datetime`s become integer seconds,
exceptions become `Except`/`Option`, and calls to external services
(Falkor graph queries, NER extractors, embedders, tokenizers) are passed in
as oracle arguments describing the outcome of the external call.
-/

namespace AME


/-! ## Python `dict` as an association list

`dinsert` mirrors `d[k] = v`: an existing key keeps its position and gets the
new value, a fresh key is appended at the end (Python dicts preserve
insertion order).  `derase` mirrors `del d[k]`. -/

abbrev Dict (κ ν : Type) := List (κ × ν)

def dlookup {κ ν : Type} [DecidableEq κ] (k : κ) : Dict κ ν → Option ν
  | [] => none
  | (k', v) :: rest => if k' = k then some v else dlookup k rest

def dinsert {κ ν : Type} [DecidableEq κ] (k : κ) (v : ν) : Dict κ ν → Dict κ ν
  | [] => [(k, v)]
  | (k', v') :: rest =>
      if k' = k then (k, v) :: rest else (k', v') :: dinsert k v rest

def derase {κ ν : Type} [DecidableEq κ] (k : κ) : Dict κ ν → Dict κ ν
  | [] => []
  | (k', v) :: rest =>
      if k' = k then derase k rest else (k', v) :: derase k rest

def dvalues {κ ν : Type} (d : Dict κ ν) : List ν := d.map Prod.snd

/-! ## FaissStore (`src/ame/storage/faiss_store.py`)

Only the ID-mapping state matters to the claims: `id_map : faiss_id → doc_id`,
`reverse_id_map : doc_id → faiss_id`, and the running counter
`index.ntotal` from which fresh faiss ids are allocated.  The raw vector
payloads are carried as arguments (the claims never inspect them). -/

structure FaissStore where
  id_map : Dict Nat String
  reverse_id_map : Dict String Nat
  ntotal : Nat
deriving DecidableEq

def FaissStore.empty : FaissStore := ⟨[], [], 0⟩

/-- `FaissStore.add(embedding, doc_id)`: the new faiss id is the current
`ntotal`; both maps get the new pair, `ntotal` grows by one. -/
def FaissStore.add (s : FaissStore) (_embedding : List ℚ) (doc_id : String) :
    Nat × FaissStore :=
  let faiss_id := s.ntotal
  (faiss_id,
    { id_map := dinsert faiss_id doc_id s.id_map
      reverse_id_map := dinsert doc_id faiss_id s.reverse_id_map
      ntotal := s.ntotal + 1 })

/-- The mapping loop of `add_batch`: `id_map[start_id + i] = doc_ids[i]`,
`reverse_id_map[doc_ids[i]] = start_id + i`. -/
def FaissStore.mapLoop : Nat → List String → FaissStore → FaissStore
  | _, [], s => s
  | fid, d :: ds, s =>
      FaissStore.mapLoop (fid + 1) ds
        { s with
          id_map := dinsert fid d s.id_map
          reverse_id_map := dinsert d fid s.reverse_id_map }

/-- `FaissStore.add_batch(embeddings, doc_ids)`: raises `ValueError` when the
two lists disagree in length (modeled as `Except.error` with the store
untouched); otherwise `index.add` bumps `ntotal` by the batch size and the
loop installs the mappings starting at the old `ntotal`. -/
def FaissStore.add_batch (s : FaissStore) (embeddings : List (List ℚ))
    (doc_ids : List String) : Except String (List Nat × FaissStore) :=
  if embeddings.length ≠ doc_ids.length then
    Except.error "embeddings and doc_ids length mismatch"
  else
    let start_id := s.ntotal
    let s' := { s with ntotal := s.ntotal + doc_ids.length }
    Except.ok
      ((List.range doc_ids.length).map (start_id + ·),
        FaissStore.mapLoop start_id doc_ids s')

/-- `FaissStore.remove(doc_id)`: membership check on `reverse_id_map`; absent
ids return `False` with no mutation, present ids are deleted from both maps
and return `True`. -/
def FaissStore.remove (s : FaissStore) (doc_id : String) : Bool × FaissStore :=
  match dlookup doc_id s.reverse_id_map with
  | none => (false, s)
  | some faiss_id =>
      (true,
        { s with
          id_map := derase faiss_id s.id_map
          reverse_id_map := derase doc_id s.reverse_id_map })

/-- Operation alphabet for `FaissStore` ID-map sequences. -/
inductive FaissOp
  | add (embedding : List ℚ) (doc_id : String)
  | add_batch (embeddings : List (List ℚ)) (doc_ids : List String)
  | remove (doc_id : String)

/-- Apply one operation; a batch whose lengths mismatch raises before any
mutation, so the state is unchanged. -/
def FaissStore.applyOp (s : FaissStore) : FaissOp → FaissStore
  | .add e d => (s.add e d).2
  | .add_batch es ds =>
      match s.add_batch es ds with
      | .ok (_, s') => s'
      | .error _ => s
  | .remove d => (s.remove d).2

def FaissStore.runOps (s : FaissStore) : List FaissOp → FaissStore
  | [] => s
  | op :: ops => FaissStore.runOps (s.applyOp op) ops

/-- Both ID maps invert each other. -/
def FaissStore.MutualInv (s : FaissStore) : Prop :=
  (∀ d f, dlookup d s.reverse_id_map = some f → dlookup f s.id_map = some d) ∧
  (∀ f d, dlookup f s.id_map = some d → dlookup d s.reverse_id_map = some f)

/-- A run in which no `add` (or `add_batch` entry) re-inserts a doc_id that
is already present, and batches carry pairwise-distinct doc_ids. -/
def FaissStore.FreshRun : FaissStore → List FaissOp → Prop
  | _, [] => True
  | s, op :: ops =>
      (match op with
       | .add _ d => dlookup d s.reverse_id_map = none
       | .add_batch _ ds =>
           ds.Nodup ∧ ∀ d ∈ ds, dlookup d s.reverse_id_map = none
       | .remove _ => True) ∧
      FaissStore.FreshRun (s.applyOp op) ops

/-- Structural invariant of the ID maps that holds unconditionally:
`reverse_id_map` inverts into `id_map`, all stored faiss ids are below the
`ntotal` counter, and `reverse_id_map` is injective. -/
def FaissStore.StoreInv (s : FaissStore) : Prop :=
  (∀ d f, dlookup d s.reverse_id_map = some f → dlookup f s.id_map = some d) ∧
  (∀ d f, dlookup d s.reverse_id_map = some f → f < s.ntotal) ∧
  (∀ d d' f, dlookup d s.reverse_id_map = some f →
     dlookup d' s.reverse_id_map = some f → d = d') ∧
  (∀ f d, dlookup f s.id_map = some d → f < s.ntotal)

/-- The converse inversion direction (fails on duplicate adds). -/
def FaissStore.Inv2 (s : FaissStore) : Prop :=
  ∀ f d, dlookup f s.id_map = some d → dlookup d s.reverse_id_map = some f

/-! ## Stable descending sort

Embeds Python's `sorted(xs, key=score, reverse=True)` / `xs.sort(...)`:
elements are inserted left to right, each new element going after every
already-placed element of greater-or-equal score, which reproduces Python's
stable descending order. -/

def insertDesc {α : Type} (score : α → ℚ) (x : α) : List α → List α
  | [] => [x]
  | y :: ys =>
      if score y < score x then x :: y :: ys else y :: insertDesc score x ys

def sortDescBy {α : Type} (score : α → ℚ) (l : List α) : List α :=
  l.foldl (fun acc x => insertDesc score x acc) []

/-! ## HybridRepository search path (`src/ame/repository/hybrid_repository.py`) -/

/-- One `{"doc_id": ..., "score": ...}` candidate row from `FaissStore.search`
or `FalkorStore.search_by_entities`. -/
structure ScoredDoc where
  doc_id : String
  score : ℚ
deriving DecidableEq

/-- One entry of the `scores` dict built by `_merge_results`. -/
structure MergeEntry where
  doc_id : String
  score : ℚ
  source : String
deriving DecidableEq

/-- Step 1 of `_merge_results`: seed the `scores` dict from the faiss rows
(`score * faiss_weight`, `source = "faiss"`). -/
def mergePhase1 (faiss_weight : ℚ) (faiss_results : List ScoredDoc) :
    Dict String MergeEntry :=
  faiss_results.foldl
    (fun scores r =>
      dinsert r.doc_id ⟨r.doc_id, r.score * faiss_weight, "faiss"⟩ scores)
    []

/-- Step 2 of `_merge_results`: add the graph rows; a doc already present
accumulates `score * graph_weight` and is retagged `"hybrid"`, a new doc is
inserted with `source = "graph"`. -/
def mergePhase2 (graph_weight : ℚ) (graph_results : List ScoredDoc)
    (scores : Dict String MergeEntry) : Dict String MergeEntry :=
  graph_results.foldl
    (fun scores r =>
      match dlookup r.doc_id scores with
      | some e =>
          dinsert r.doc_id ⟨e.doc_id, e.score + r.score * graph_weight, "hybrid"⟩ scores
      | none =>
          dinsert r.doc_id ⟨r.doc_id, r.score * graph_weight, "graph"⟩ scores)
    scores

/-- `HybridRepository._merge_results`: fuse the two candidate lists keyed by
doc_id, then sort the dict's values by score, descending. -/
def merge_results (faiss_results graph_results : List ScoredDoc)
    (faiss_weight graph_weight : ℚ) : List MergeEntry :=
  sortDescBy (·.score)
    (dvalues (mergePhase2 graph_weight graph_results
      (mergePhase1 faiss_weight faiss_results)))

/-- The score a candidate list assigns to a doc_id (`none` when absent). -/
def lookupScore (l : List ScoredDoc) (d : String) : Option ℚ :=
  (l.find? (fun r => r.doc_id == d)).map (·.score)

/-- `HybridRepository._apply_filters`: the body is a `TODO` in the source and
returns its input unchanged. -/
def apply_filters (results : List MergeEntry)
    (_filters : List (String × String)) : List MergeEntry :=
  results

/-- An NER `Entity` (`ame.ner.base`): surface text, type tag and confidence. -/
structure Entity where
  text : String
  type : String
  score : ℚ
deriving DecidableEq

/-- Python's `not s or not s.strip()`: true iff the string is empty or
whitespace-only. -/
def pyBlank (s : String) : Bool := s.toList.all Char.isWhitespace

/-- `HybridRepository._extract_entities`: blank text gives `[]`; otherwise the
NER call either succeeds (keep the entity texts) or raises (log and return
`[]` — no tokenizer fallback on this path). -/
def HybridRepository.extract_entities (ner : Except Unit (List Entity))
    (text : String) : List String :=
  if pyBlank text then []
  else
    match ner with
    | .ok entities => entities.map (·.text)
    | .error _ => []

/-- `HybridRepository._graph_search`: extract entities from the query and, if
any, call `FalkorStore.search_by_entities(query, entities, top_k)`.  The
second component records the `top_k` budget handed to the store
(`none` = store not called). -/
def HybridRepository.graph_search (ner : Except Unit (List Entity))
    (search_by_entities : List String → Nat → List ScoredDoc)
    (query : String) (top_k : Nat) : List ScoredDoc × Option Nat :=
  let entities := HybridRepository.extract_entities ner query
  if entities = [] then ([], none)
  else (search_by_entities entities top_k, some top_k)

/-- `DataLayer` (`ame.models.domain`): hot / warm / cold tiers. -/
inductive DataLayer
  | hot
  | warm
  | cold
deriving DecidableEq

/-- The metadata row of a stored document (the `documents` table fields the
claims touch; timestamps are integer seconds). -/
structure Document where
  id : String
  content : String
  layer : DataLayer
  importance : ℚ
  timestamp : Int
  created_at : Int
  stored_in_faiss : Bool
  status : String
deriving DecidableEq

/-- `MetadataStore.get_by_ids`: `SELECT ... WHERE id IN (...)` returns the
matching rows in table order; the empty id list short-circuits to `[]`. -/
def MetadataStore.get_by_ids (db : List Document) (doc_ids : List String) :
    List Document :=
  if doc_ids = [] then []
  else db.filter (fun doc => doc_ids.contains doc.id)

/-- One element of `hybrid_search`'s returned list. -/
structure SearchResult where
  doc_id : String
  content : String
  score : ℚ
  source : String
deriving DecidableEq

/-- Output of `hybrid_search` plus the candidate budgets it handed to the two
stores (`none` = that store was not queried). -/
structure HybridSearchOut where
  results : List SearchResult
  faissBudget : Option Nat
  graphBudget : Option Nat
deriving DecidableEq

/-- `HybridRepository.hybrid_search`.  `query_embedding` is the value after
the optional embedding step; `none` means no vector search happens (the
`asyncio.sleep(0)` placeholder result is treated as `[]`).  The faiss side is
queried with `top_k * 2`, the graph side through `_graph_search(query, top_k)`.
Fusion, the (no-op-backed) filter step, truncation to `top_k` and hydration
via `MetadataStore.get_by_ids` follow the source line by line. -/
def HybridRepository.hybrid_search
    (faiss_search : List ℚ → Nat → List ScoredDoc)
    (ner : Except Unit (List Entity))
    (search_by_entities : List String → Nat → List ScoredDoc)
    (db : List Document)
    (query : String) (query_embedding : Option (List ℚ))
    (top_k : Nat) (faiss_weight graph_weight : ℚ)
    (filters : Option (List (String × String))) : HybridSearchOut :=
  let faissPart : List ScoredDoc × Option Nat :=
    match query_embedding with
    | some emb => (faiss_search emb (top_k * 2), some (top_k * 2))
    | none => ([], none)
  let graphPart := HybridRepository.graph_search ner search_by_entities query top_k
  let merged := merge_results faissPart.1 graphPart.1 faiss_weight graph_weight
  let merged :=
    match filters with
    | some fl => apply_filters merged fl
    | none => merged
  let top_results := merged.take top_k
  let docs := MetadataStore.get_by_ids db (top_results.map (·.doc_id))
  let search_results := top_results.filterMap (fun r =>
    (docs.find? (fun doc => doc.id == r.doc_id)).map (fun doc =>
      ({ doc_id := doc.id, content := doc.content, score := r.score,
         source := r.source } : SearchResult)))
  { results := search_results
    faissBudget := faissPart.2
    graphBudget := graphPart.2 }

/-! ## HybridRepository.create (dual write, commit point) -/

/-- Abstract Falkor graph contents.  `create`'s contract is independent of the
node/edge layout, so the graph store state is carried opaquely. -/
structure GraphDB where
  facts : List String
deriving DecidableEq

/-- Outcome of one awaited side-write coroutine: the state its store ends in
and whether the coroutine raised. -/
structure TaskOutcome (σ : Type) where
  state : σ
  raised : Bool

/-- Combined repository state: faiss index, falkor graph, metadata table. -/
structure RepoState where
  faiss : FaissStore
  graph : GraphDB
  metadata : List Document
deriving DecidableEq

/-- `HybridRepository.create`.  `embedding` is `doc.embedding` after the
optional generation step.  The side writes are handed to `asyncio.gather`,
which runs them concurrently: both tasks execute to their outcome states even
when the other raises, and `gather` re-raises if either raised, so the
`metadata.insert` commit line is reached only when both succeeded.  The faiss
task is scheduled only when an embedding is present. -/
def HybridRepository.create (st : RepoState) (doc : Document)
    (embedding : Option (List ℚ))
    (vec : TaskOutcome FaissStore) (gw : TaskOutcome GraphDB) :
    Bool × RepoState :=
  let vecTask : TaskOutcome FaissStore :=
    if embedding.isSome then vec else ⟨st.faiss, false⟩
  let st' : RepoState := { st with faiss := vecTask.state, graph := gw.state }
  if vecTask.raised || gw.raised then
    (false, st')
  else
    (true, { st' with metadata := st.metadata ++ [{ doc with status := "active" }] })

/-! ## Lifecycle management (`HybridRepository.lifecycle_management`) -/

/-- `MetadataStore.list(layer=..., before=..., limit=...)`: rows of the given
layer with `timestamp < before`, ordered by `created_at DESC`, first `limit`
rows. -/
def MetadataStore.list (db : List Document) (layer : DataLayer) (before : Int)
    (limit : Nat) : List Document :=
  (sortDescBy (fun doc => (doc.created_at : ℚ))
    (db.filter (fun doc => decide (doc.layer = layer) && decide (doc.timestamp < before)))).take limit

/-- `MetadataStore.update(doc_id, updates)` restricted to the field updates
the lifecycle job performs. -/
def MetadataStore.update (db : List Document) (doc_id : String)
    (upd : Document → Document) : List Document :=
  db.map (fun doc => if doc.id = doc_id then upd doc else doc)

def secondsPerDay : Int := 86400

/-- The demotion applied to an over-age high-importance HOT doc. -/
def toWarm (doc : Document) : Document := { doc with layer := .warm }

/-- The demotion applied when the vector entry is dropped. -/
def toCold (doc : Document) : Document :=
  { doc with layer := .cold, stored_in_faiss := false }

/-- Body of the first lifecycle loop, one HOT doc at a time. -/
def lifecycleHotStep (acc : List Document × FaissStore) (doc : Document) :
    List Document × FaissStore :=
  if doc.importance > 7/10 then
    (MetadataStore.update acc.1 doc.id toWarm, acc.2)
  else
    (MetadataStore.update acc.1 doc.id toCold, (acc.2.remove doc.id).2)

/-- Body of the second lifecycle loop, one WARM doc at a time. -/
def lifecycleWarmStep (acc : List Document × FaissStore) (doc : Document) :
    List Document × FaissStore :=
  (MetadataStore.update acc.1 doc.id toCold, (acc.2.remove doc.id).2)

/-- `HybridRepository.lifecycle_management()`: scan HOT docs older than 7
days (importance above 0.7 → WARM, else → COLD with the faiss entry
removed), then scan WARM docs older than 30 days (→ COLD with the faiss
entry removed).  The second scan runs against the already-updated metadata
table.  Both scans are capped at 1000 rows. -/
def lifecycle_management (db : List Document) (faiss : FaissStore) (now : Int) :
    List Document × FaissStore :=
  let hot_docs := MetadataStore.list db .hot (now - 7 * secondsPerDay) 1000
  let acc1 := hot_docs.foldl lifecycleHotStep (db, faiss)
  let warm_docs := MetadataStore.list acc1.1 .warm (now - 30 * secondsPerDay) 1000
  warm_docs.foldl lifecycleWarmStep acc1

/-- The metadata part of one HOT-loop iteration. -/
def hotDbStep (db : List Document) (doc : Document) : List Document :=
  MetadataStore.update db doc.id
    (fun r => if doc.importance > 7/10 then toWarm r else toCold r)

/-- The faiss part of one HOT-loop iteration. -/
def hotFsStep (fs : FaissStore) (doc : Document) : FaissStore :=
  if doc.importance > 7/10 then fs else (fs.remove doc.id).2

/-- The metadata part of one WARM-loop iteration. -/
def warmDbStep (db : List Document) (doc : Document) : List Document :=
  MetadataStore.update db doc.id toCold

/-- The faiss part of one WARM-loop iteration. -/
def warmFsStep (fs : FaissStore) (doc : Document) : FaissStore :=
  (fs.remove doc.id).2

/-- The first scan's eligibility test: HOT and older than 7 days. -/
abbrev hotEligible (now : Int) (r : Document) : Prop :=
  r.layer = .hot ∧ r.timestamp < now - 7 * secondsPerDay

/-- The second scan's eligibility test: WARM and older than 30 days. -/
abbrev warmEligible (now : Int) (r : Document) : Prop :=
  r.layer = .warm ∧ r.timestamp < now - 30 * secondsPerDay

/-- Per-document outcome of one `lifecycle_management` run: an over-age HOT
doc of importance above 0.7 goes to WARM — unless it is also older than 30
days, in which case the same run's second scan demotes it straight on to
COLD; an over-age HOT doc of importance not above 0.7 goes to COLD; an
over-age WARM doc goes to COLD; everything else is untouched. -/
def lifecycleSpec (now : Int) (r : Document) : Document :=
  if hotEligible now r then
    (if r.importance > 7/10 then
       (if r.timestamp < now - 30 * secondsPerDay then toCold (toWarm r)
        else toWarm r)
     else toCold r)
  else if warmEligible now r then toCold r
  else r

/-- Per-document effect of the first (HOT) scan alone. -/
def lifecycleHotSpec (now : Int) (r : Document) : Document :=
  if hotEligible now r then
    (if r.importance > 7/10 then toWarm r else toCold r)
  else r

/-- Whether one run removes the document's vector entry. -/
def RemovedNow (now : Int) (r : Document) : Prop :=
  (hotEligible now r ∧
    (¬ r.importance > 7/10 ∨ r.timestamp < now - 30 * secondsPerDay)) ∨
  warmEligible now r

/-! ## GraphRetriever (`src/ame/retrieval/graph_retriever.py`) -/

/-- The stopword set of `GraphRetriever._fallback_extract`. -/
def fallbackStopwords : List String := ["的", "了", "在", "是"]

/-- Python `str.split()` with no argument: split on runs of whitespace,
dropping empty pieces. The accumulator carries the current word reversed. -/
def pySplitAux : List Char → List Char → List String
  | [], [] => []
  | [], acc => [String.mk acc.reverse]
  | c :: cs, acc =>
      if c.isWhitespace then
        (match acc with
         | [] => pySplitAux cs []
         | _ => String.mk acc.reverse :: pySplitAux cs [])
      else pySplitAux cs (c :: acc)

def pySplit (text : String) : List String := pySplitAux text.toList []

/-- `GraphRetriever._fallback_extract`: `jieba` is an optional dependency,
modeled as `Option` of its `lcut` tokenizer. When importable, tokenize and
drop tokens of length ≤ 1 and stopwords; on `ImportError` return the raw
whitespace split `text.split()` with no filtering. -/
def fallback_extract (jieba : Option (String → List String)) (text : String) :
    List String :=
  match jieba with
  | some lcut =>
      (lcut text).filter
        (fun w => decide (1 < w.length) && !(fallbackStopwords.contains w))
  | none => pySplit text

/-- `GraphRetriever._extract_entities`: NER success keeps the entity texts
(even when empty); only an NER exception falls back to the tokenizer. -/
def GraphRetriever.extract_entities (ner : Except Unit (List Entity))
    (jieba : Option (String → List String)) (text : String) : List String :=
  match ner with
  | .ok entities => entities.map (·.text)
  | .error _ => fallback_extract jieba text

/-- A row returned by `FalkorStore.find_related_docs`: `doc_id` may be absent
or empty (both falsy in Python, modeled as `""`), `distance` defaults to 1
when missing. -/
structure RelatedDoc where
  doc_id : String
  distance : Option Nat
deriving DecidableEq

/-- A graph candidate row as carried through `GraphRetriever`. -/
structure GraphRow where
  doc_id : String
  score : ℚ
  source : String
  hop_distance : Option Nat
  base_doc_id : Option String
deriving DecidableEq

/-- Inner loop of `_expand_with_multi_hop`: fold the related docs of one seed
into `(expanded, existing_doc_ids)`; a doc already seen keeps its first
occurrence. -/
def expandRelatedStep (seed : GraphRow) (acc : List GraphRow × List String)
    (related : RelatedDoc) : List GraphRow × List String :=
  if related.doc_id ≠ "" ∧ ¬ acc.2.contains related.doc_id then
    let distance := related.distance.getD 1
    (acc.1 ++ [{ doc_id := related.doc_id
                 score := seed.score * (7/10) ^ distance
                 source := "graph_expanded"
                 hop_distance := some distance
                 base_doc_id := some seed.doc_id }],
     related.doc_id :: acc.2)
  else acc

/-- `GraphRetriever._expand_with_multi_hop`: expand at most the top 5 seeds;
`find_related_docs(doc_id, max_hops, limit=10)` is the `related` oracle,
whose exception (per seed) is caught and skips that seed. -/
def expand_with_multi_hop (initial_results : List GraphRow)
    (related : String → Except Unit (List RelatedDoc)) : List GraphRow :=
  let existing := initial_results.map (·.doc_id)
  let top_results := initial_results.take 5
  (top_results.foldl
    (fun acc seed =>
      match related seed.doc_id with
      | .ok rel => rel.foldl (expandRelatedStep seed) acc
      | .error _ => acc)
    (initial_results, existing)).1

/-- `GraphRetriever._convert_to_results` output element. -/
structure RetrievalResult where
  content : String
  doc_id : String
  score : ℚ
  source : String
  hop_distance : Option Nat
deriving DecidableEq

/-- `GraphRetriever._convert_to_results`: rows with a falsy doc_id are
skipped; content is hydrated later and stays empty here. -/
def convert_to_results (graph_results : List GraphRow) : List RetrievalResult :=
  graph_results.filterMap (fun r =>
    if r.doc_id = "" then none
    else some { content := ""
                doc_id := r.doc_id
                score := r.score
                source := r.source
                hop_distance := r.hop_distance })

/-- `GraphRetriever.retrieve`: blank query → `[]`; no entities → `[]`; no
graph hits → `[]`; optional multi-hop expansion; sort by score descending and
truncate to `top_k`. -/
def GraphRetriever.retrieve (ner : Except Unit (List Entity))
    (jieba : Option (String → List String))
    (search_by_entities : List String → Nat → List GraphRow)
    (related : String → Except Unit (List RelatedDoc))
    (enable_multi_hop : Bool)
    (query : String) (top_k : Nat) : List RetrievalResult :=
  if pyBlank query then []
  else
    let entities := GraphRetriever.extract_entities ner jieba query
    if entities = [] then []
    else
      let graph_results := search_by_entities entities (top_k * 2)
      if graph_results = [] then []
      else
        let graph_results :=
          if enable_multi_hop then expand_with_multi_hop graph_results related
          else graph_results
        (sortDescBy (·.score) (convert_to_results graph_results)).take top_k

/-! ## HybridRetriever weight normalization
(`src/ame/retrieval/hybrid_retriever.py`) -/

/-- The four normalized weights stored by `HybridRetriever.__init__`. -/
structure FusionWeights where
  vector_weight : ℚ
  graph_weight : ℚ
  keyword_weight : ℚ
  time_weight : ℚ
deriving DecidableEq

/-- `HybridRetriever.__init__` weight normalization: each weight is divided
by the raw total.  Python raises `ZeroDivisionError` when the total is 0
(there is no guard in the source); the raise is modeled as `Except.error`. -/
def HybridRetriever.init (vector_weight graph_weight keyword_weight time_weight : ℚ) :
    Except Unit FusionWeights :=
  let total := vector_weight + graph_weight + keyword_weight + time_weight
  if total = 0 then .error ()
  else .ok ⟨vector_weight / total, graph_weight / total,
            keyword_weight / total, time_weight / total⟩

/-- A sample document for witness instantiations. -/
def sampleDoc : Document :=
  { id := "doc-1", content := "Faiss vector search", layer := .hot
    importance := 1/2, timestamp := 0, created_at := 0
    stored_in_faiss := false, status := "processing" }

/-- Every dict entry is stored under its own doc_id. -/
def entriesKeyed (m : Dict String MergeEntry) : Prop :=
  ∀ p ∈ m, p.2.doc_id = p.1

/-- The mocked candidate lists of the spec's end-to-end example. -/
def exampleFaissRows : List ScoredDoc := [⟨"A", 9/10⟩]

def exampleGraphRows : List ScoredDoc := [⟨"B", 8/10⟩]

/-! ### Multi-hop expansion (C7) -/

/-- What `_expand_with_multi_hop` guarantees for every appended row: it stems
from one of the first 5 seeds, carries a hop distance `d`, scores
`seedScore * 0.7^d`, and its doc_id was not among the initial results. -/
def GoodExpansion (initial : List GraphRow) (e : GraphRow) : Prop :=
  (∃ s ∈ initial.take 5, e.base_doc_id = some s.doc_id ∧
     ∃ dist, e.hop_distance = some dist ∧ e.score = s.score * (7/10) ^ dist) ∧
  e.doc_id ∉ initial.map (·.doc_id)

/-- Loop invariant of the expansion fold. -/
def ExpandInv (initial : List GraphRow) (acc : List GraphRow × List String) :
    Prop :=
  (∃ extras, acc.1 = initial ++ extras ∧ ∀ e ∈ extras, GoodExpansion initial e) ∧
  (∀ x : String, x ∈ acc.2 ↔ x ∈ acc.1.map (·.doc_id)) ∧
  (acc.1.map (·.doc_id)).Nodup

/-- The row `_expand_with_multi_hop` builds for a related doc `r` of `seed`:
decayed score `seedScore * 0.7^distance` with the distance defaulting to 1. -/
def expandSpecRow (seed : GraphRow) (r : RelatedDoc) : GraphRow :=
  { doc_id := r.doc_id
    score := seed.score * (7/10) ^ (r.distance.getD 1)
    source := "graph_expanded"
    hop_distance := some (r.distance.getD 1)
    base_doc_id := some seed.doc_id }

/-- All candidate expansion rows in seed order: for each seed in turn, its
related docs in oracle order (a failing oracle call contributes nothing for
that seed, falsy doc_ids are dropped). -/
def expandCandidates (related : String → Except Unit (List RelatedDoc)) :
    List GraphRow → List GraphRow
  | [] => []
  | s :: ss =>
      (match related s.doc_id with
       | .ok rel =>
           (rel.filter (fun rd => decide (rd.doc_id ≠ ""))).map (expandSpecRow s)
       | .error _ => []) ++ expandCandidates related ss

/-- Keep, in order, the first occurrence of each doc_id not already in
`seen`; later rows with the same doc_id are discarded, never overwriting the
kept one. Returns the kept rows and the extended seen set. -/
def firstOccAux (seen : List String) : List GraphRow →
    List GraphRow × List String
  | [] => ([], seen)
  | e :: es =>
      if seen.contains e.doc_id then firstOccAux seen es
      else
        (e :: (firstOccAux (e.doc_id :: seen) es).1,
         (firstOccAux (e.doc_id :: seen) es).2)

def firstOccurrences (seen : List String) (es : List GraphRow) :
    List GraphRow :=
  (firstOccAux seen es).1

/-- A HOT document 31 days old with importance 0.9, stored in faiss. -/
def cexDoc : Document :=
  ⟨"a", "x", .hot, 9/10, 69 * secondsPerDay, 0, true, "active"⟩

def cexFaiss : FaissStore := (FaissStore.empty.add [1] "a").2

/-- A HOT document 10 days old with importance 0.5, stored in faiss. -/
def witDoc : Document :=
  ⟨"w", "c", .hot, 1/2, 90 * secondsPerDay, 0, true, "active"⟩


theorem dlookup_dinsert_self {κ ν : Type} [DecidableEq κ] (k : κ) (v : ν)
    (d : Dict κ ν) : dlookup k (dinsert k v d) = some v := by
  induction d with
  | nil => simp [dinsert, dlookup]
  | cons p rest ih =>
      obtain ⟨a, b⟩ := p
      by_cases ha : a = k
      · simp [dinsert, ha, dlookup]
      · simp [dinsert, ha, dlookup, ih]

theorem dlookup_dinsert_ne {κ ν : Type} [DecidableEq κ] {k k' : κ} (v : ν)
    (d : Dict κ ν) (h : k ≠ k') : dlookup k' (dinsert k v d) = dlookup k' d := by
  induction d with
  | nil => simp [dinsert, dlookup, h]
  | cons p rest ih =>
      obtain ⟨a, b⟩ := p
      by_cases ha : a = k
      · simp [dinsert, ha, dlookup, h]
      · simp [dinsert, ha, dlookup, ih]

theorem dlookup_derase_self {κ ν : Type} [DecidableEq κ] (k : κ)
    (d : Dict κ ν) : dlookup k (derase k d) = none := by
  induction d with
  | nil => simp [derase, dlookup]
  | cons p rest ih =>
      obtain ⟨a, b⟩ := p
      by_cases ha : a = k
      · simp [derase, ha, ih]
      · simp [derase, ha, dlookup, ih]

theorem dlookup_derase_ne {κ ν : Type} [DecidableEq κ] {k k' : κ}
    (d : Dict κ ν) (h : k ≠ k') : dlookup k' (derase k d) = dlookup k' d := by
  induction d with
  | nil => simp [derase, dlookup]
  | cons p rest ih =>
      obtain ⟨a, b⟩ := p
      by_cases ha : a = k
      · simp [derase, ha, dlookup, h, ih]
      · simp [derase, ha, dlookup, ih]

theorem insertDesc_perm {α : Type} (score : α → ℚ) (x : α) (l : List α) :
    List.Perm (insertDesc score x l) (x :: l) := by
  induction l with
  | nil => exact List.Perm.refl _
  | cons y ys ih =>
      by_cases h : score y < score x
      · simp [insertDesc, h]
      · simp only [insertDesc, h, if_neg, ite_false]
        exact (ih.cons y).trans (List.Perm.swap x y ys)

theorem sortDescBy_core_perm {α : Type} (score : α → ℚ) (l acc : List α) :
    List.Perm (l.foldl (fun acc x => insertDesc score x acc) acc) (acc ++ l) := by
  induction l generalizing acc with
  | nil => simp
  | cons x xs ih =>
      have h1 : List.Perm
          (xs.foldl (fun acc x => insertDesc score x acc) (insertDesc score x acc))
          (insertDesc score x acc ++ xs) := ih _
      have h2 : List.Perm (insertDesc score x acc ++ xs) ((x :: acc) ++ xs) :=
        (insertDesc_perm score x acc).append_right xs
      have h3 : List.Perm ((x :: acc) ++ xs) (acc ++ x :: xs) := List.perm_middle.symm
      exact (h1.trans h2).trans h3

theorem sortDescBy_perm {α : Type} (score : α → ℚ) (l : List α) :
    List.Perm (sortDescBy score l) l := by
  simpa using sortDescBy_core_perm score l []

theorem mem_insertDesc {α : Type} {score : α → ℚ} {x a : α} {l : List α} :
    a ∈ insertDesc score x l ↔ a = x ∨ a ∈ l := by
  constructor
  · intro h
    have := (insertDesc_perm score x l).mem_iff.mp h
    simpa using this
  · intro h
    exact (insertDesc_perm score x l).mem_iff.mpr (by simpa using h)

theorem insertDesc_sorted {α : Type} (score : α → ℚ) (x : α) {l : List α}
    (hl : l.Pairwise (fun a b => score b ≤ score a)) :
    (insertDesc score x l).Pairwise (fun a b => score b ≤ score a) := by
  induction l with
  | nil => simp [insertDesc]
  | cons y ys ih =>
      rcases List.pairwise_cons.mp hl with ⟨hy, hys⟩
      by_cases h : score y < score x
      · simp only [insertDesc, if_pos h]
        refine List.pairwise_cons.mpr ⟨?_, hl⟩
        intro z hz
        rcases List.mem_cons.mp hz with rfl | hz
        · exact le_of_lt h
        · exact le_trans (hy z hz) (le_of_lt h)
      · simp only [insertDesc, if_neg h]
        refine List.pairwise_cons.mpr ⟨?_, ih hys⟩
        intro z hz
        rcases mem_insertDesc.mp hz with rfl | hz
        · exact not_lt.mp h
        · exact hy z hz

theorem sortDescBy_sorted {α : Type} (score : α → ℚ) (l : List α) :
    (sortDescBy score l).Pairwise (fun a b => score b ≤ score a) := by
  have core : ∀ (xs acc : List α),
      acc.Pairwise (fun a b => score b ≤ score a) →
      (xs.foldl (fun acc x => insertDesc score x acc) acc).Pairwise
        (fun a b => score b ≤ score a) := by
    intro xs
    induction xs with
    | nil => intro acc h; simpa using h
    | cons x xs ih =>
        intro acc h
        exact ih _ (insertDesc_sorted score x h)
  exact core l [] (by simp)

/-! ## Claim theorems -/

/-- C1: in `create`, both side writes run under `asyncio.gather` and each
reaches its outcome state regardless of the other's failure; the metadata
insert is the commit point, executed exactly when both side writes succeed;
a failed run inserts no metadata row; a completed side write is never rolled
back (the final faiss/graph states are the task outcomes even on failure). -/
theorem create_dual_write_commit_point (st : RepoState) (doc : Document)
    (embedding : Option (List ℚ)) (vec : TaskOutcome FaissStore)
    (gw : TaskOutcome GraphDB) (h : embedding.isSome) :
    (HybridRepository.create st doc embedding vec gw).2.faiss = vec.state ∧
    (HybridRepository.create st doc embedding vec gw).2.graph = gw.state ∧
    ((HybridRepository.create st doc embedding vec gw).1 = true ↔
      vec.raised = false ∧ gw.raised = false) ∧
    ((HybridRepository.create st doc embedding vec gw).1 = false →
      (HybridRepository.create st doc embedding vec gw).2.metadata = st.metadata) ∧
    ((HybridRepository.create st doc embedding vec gw).1 = true →
      (HybridRepository.create st doc embedding vec gw).2.metadata
        = st.metadata ++ [{ doc with status := "active" }]) := by
  obtain ⟨e, rfl⟩ := Option.isSome_iff_exists.mp h
  cases hv : vec.raised <;> cases hg : gw.raised <;>
    simp [HybridRepository.create, hv, hg]

theorem create_dual_write_commit_point_witness :
    (some [(1 : ℚ)] : Option (List ℚ)).isSome ∧
    ((HybridRepository.create ⟨FaissStore.empty, ⟨[]⟩, []⟩ sampleDoc (some [1])
        ⟨FaissStore.empty, false⟩ ⟨⟨["n"]⟩, false⟩).2.faiss = FaissStore.empty ∧
     (HybridRepository.create ⟨FaissStore.empty, ⟨[]⟩, []⟩ sampleDoc (some [1])
        ⟨FaissStore.empty, false⟩ ⟨⟨["n"]⟩, false⟩).2.graph = ⟨["n"]⟩ ∧
     ((HybridRepository.create ⟨FaissStore.empty, ⟨[]⟩, []⟩ sampleDoc (some [1])
        ⟨FaissStore.empty, false⟩ ⟨⟨["n"]⟩, false⟩).1 = true ↔
       false = false ∧ false = false) ∧
     ((HybridRepository.create ⟨FaissStore.empty, ⟨[]⟩, []⟩ sampleDoc (some [1])
        ⟨FaissStore.empty, false⟩ ⟨⟨["n"]⟩, false⟩).1 = false →
       (HybridRepository.create ⟨FaissStore.empty, ⟨[]⟩, []⟩ sampleDoc (some [1])
        ⟨FaissStore.empty, false⟩ ⟨⟨["n"]⟩, false⟩).2.metadata = []) ∧
     ((HybridRepository.create ⟨FaissStore.empty, ⟨[]⟩, []⟩ sampleDoc (some [1])
        ⟨FaissStore.empty, false⟩ ⟨⟨["n"]⟩, false⟩).1 = true →
       (HybridRepository.create ⟨FaissStore.empty, ⟨[]⟩, []⟩ sampleDoc (some [1])
        ⟨FaissStore.empty, false⟩ ⟨⟨["n"]⟩, false⟩).2.metadata
         = [] ++ [{ sampleDoc with status := "active" }])) :=
  ⟨rfl, create_dual_write_commit_point ⟨FaissStore.empty, ⟨[]⟩, []⟩ sampleDoc
    (some [1]) ⟨FaissStore.empty, false⟩ ⟨⟨["n"]⟩, false⟩ rfl⟩

/-- C4 counterexample: `hybrid_search` with `top_k = 10` hands the graph side
a budget of 10, not `2 × 10` — the graph search is not over-fetched at
`2 × top_k`. -/
theorem hybrid_search_graph_budget_cex :
    (HybridRepository.hybrid_search (fun _ _ => [])
      (Except.ok [⟨"Faiss", "topic", 1⟩]) (fun _ _ => []) [] "q" (some [1])
      10 (6/10) (4/10) none).graphBudget = some 10 ∧
    (HybridRepository.hybrid_search (fun _ _ => [])
      (Except.ok [⟨"Faiss", "topic", 1⟩]) (fun _ _ => []) [] "q" (some [1])
      10 (6/10) (4/10) none).graphBudget ≠ some (2 * 10) := by
  constructor <;>
    simp [HybridRepository.hybrid_search, HybridRepository.graph_search,
      HybridRepository.extract_entities, pyBlank]

/-- C4 (amended): `hybrid_search` over-fetches `top_k * 2` candidates from
the vector store, but the entity-based graph search is issued with a budget
of only `top_k` (passed through `_graph_search` to `search_by_entities`). -/
theorem hybrid_search_overfetch_budgets
    (faiss_search : List ℚ → Nat → List ScoredDoc)
    (ner : Except Unit (List Entity))
    (search_by_entities : List String → Nat → List ScoredDoc)
    (db : List Document) (query : String) (emb : List ℚ) (top_k : Nat)
    (fw gwt : ℚ) (filters : Option (List (String × String)))
    (hent : HybridRepository.extract_entities ner query ≠ []) :
    (HybridRepository.hybrid_search faiss_search ner search_by_entities db
      query (some emb) top_k fw gwt filters).faissBudget = some (top_k * 2) ∧
    (HybridRepository.hybrid_search faiss_search ner search_by_entities db
      query (some emb) top_k fw gwt filters).graphBudget = some top_k := by
  constructor <;>
    simp [HybridRepository.hybrid_search, HybridRepository.graph_search, hent]

theorem hybrid_search_overfetch_budgets_witness :
    HybridRepository.extract_entities (Except.ok [⟨"Faiss", "topic", 1⟩]) "q" ≠ [] ∧
    ((HybridRepository.hybrid_search (fun _ _ => [])
        (Except.ok [⟨"Faiss", "topic", 1⟩]) (fun _ _ => []) [] "q" (some [1])
        10 (6/10) (4/10) none).faissBudget = some (10 * 2) ∧
     (HybridRepository.hybrid_search (fun _ _ => [])
        (Except.ok [⟨"Faiss", "topic", 1⟩]) (fun _ _ => []) [] "q" (some [1])
        10 (6/10) (4/10) none).graphBudget = some 10) :=
  ⟨by simp [HybridRepository.extract_entities, pyBlank],
   hybrid_search_overfetch_budgets (fun _ _ => [])
     (Except.ok [⟨"Faiss", "topic", 1⟩]) (fun _ _ => []) [] "q" [1] 10
     (6/10) (4/10) none
     (by simp [HybridRepository.extract_entities, pyBlank])⟩

/-- C5: `_apply_filters` returns its input unchanged for every candidate list
and every filter map — the post-fusion metadata filter step is a no-op (the
source body is a bare `TODO`), so candidates violating the filters are never
removed. -/
theorem apply_filters_is_noop (results : List MergeEntry)
    (filters : List (String × String)) :
    apply_filters results filters = results := rfl

/-- C8 counterexample: constructing the fusion retriever with the four
weights all 0 (sum 0) does not produce an equal split — the unguarded
division by the zero total raises (`ZeroDivisionError`, modeled as
`Except.error`), so no weights at all are stored. -/
theorem fusion_weights_zero_sum_cex :
    HybridRetriever.init 0 0 0 0 = Except.error () ∧
    HybridRetriever.init 0 0 0 0 ≠ Except.ok ⟨1/4, 1/4, 1/4, 1/4⟩ := by
  constructor <;> simp [HybridRetriever.init]

/-- C8 (amended): weights with positive sum are stored as the inputs divided
by the raw total and then sum to 1; weights summing to 0 make the
constructor raise a division-by-zero error rather than normalizing to an
equal split. -/
theorem fusion_weights_normalization (vw gwt kw tw : ℚ)
    (h : 0 < vw + gwt + kw + tw) :
    HybridRetriever.init vw gwt kw tw =
      Except.ok ⟨vw / (vw + gwt + kw + tw), gwt / (vw + gwt + kw + tw),
                 kw / (vw + gwt + kw + tw), tw / (vw + gwt + kw + tw)⟩ ∧
    vw / (vw + gwt + kw + tw) + gwt / (vw + gwt + kw + tw) +
      kw / (vw + gwt + kw + tw) + tw / (vw + gwt + kw + tw) = 1 := by
  have hne : vw + gwt + kw + tw ≠ 0 := ne_of_gt h
  constructor
  · simp [HybridRetriever.init, hne]
  · field_simp

theorem fusion_weights_normalization_witness :
    (0 : ℚ) < 6/10 + 4/10 + 0 + 0 ∧
    (HybridRetriever.init (6/10) (4/10) 0 0 =
      Except.ok ⟨(6/10) / (6/10 + 4/10 + 0 + 0), (4/10) / (6/10 + 4/10 + 0 + 0),
                 0 / (6/10 + 4/10 + 0 + 0), 0 / (6/10 + 4/10 + 0 + 0)⟩ ∧
     (6:ℚ)/10 / (6/10 + 4/10 + 0 + 0) + (4:ℚ)/10 / (6/10 + 4/10 + 0 + 0) +
       0 / (6/10 + 4/10 + 0 + 0) + 0 / (6/10 + 4/10 + 0 + 0) = 1) :=
  ⟨by norm_num, fusion_weights_normalization (6/10) (4/10) 0 0 (by norm_num)⟩

/-- C9: `FaissStore.remove` is idempotent at the interface: after any
`remove(doc_id)` a second `remove(doc_id)` returns `False` (the embedding is
a total function, so no error is raised), and removing a doc_id that is not
in `reverse_id_map` (never added) returns `False` with the store unchanged. -/
theorem faiss_remove_idempotent (s : FaissStore) (doc_id : String) :
    (((s.remove doc_id).2).remove doc_id).1 = false ∧
    (dlookup doc_id s.reverse_id_map = none →
      (s.remove doc_id).1 = false ∧ (s.remove doc_id).2 = s) := by
  constructor
  · cases h : dlookup doc_id s.reverse_id_map with
    | none => simp [FaissStore.remove, h]
    | some fid => simp [FaissStore.remove, h, dlookup_derase_self]
  · intro h
    simp [FaissStore.remove, h]

theorem faiss_remove_idempotent_witness :
    ((((FaissStore.empty.add [1] "a").2.remove "a").2).remove "a").1 = false ∧
    (dlookup "b" (FaissStore.empty.add [1] "a").2.reverse_id_map = none ∧
      ((FaissStore.empty.add [1] "a").2.remove "b").1 = false) :=
  ⟨(faiss_remove_idempotent (FaissStore.empty.add [1] "a").2 "a").1,
   by decide,
   ((faiss_remove_idempotent (FaissStore.empty.add [1] "a").2 "b").2 (by decide)).1⟩

/-! ### Dict characterization lemmas for `_merge_results` -/

theorem mem_keys_dinsert {κ ν : Type} [DecidableEq κ] {x k : κ} (v : ν)
    (m : Dict κ ν) :
    x ∈ (dinsert k v m).map Prod.fst ↔ x = k ∨ x ∈ m.map Prod.fst := by
  induction m with
  | nil => simp [dinsert]
  | cons p rest ih =>
      obtain ⟨a, b⟩ := p
      by_cases ha : a = k
      · subst ha
        simp [dinsert]
      · simp only [dinsert, if_neg ha, List.map_cons, List.mem_cons, ih]
        tauto

theorem dictKeysNodup_dinsert {κ ν : Type} [DecidableEq κ] (k : κ) (v : ν)
    {m : Dict κ ν} (h : (m.map Prod.fst).Nodup) :
    ((dinsert k v m).map Prod.fst).Nodup := by
  induction m with
  | nil => simp [dinsert]
  | cons p rest ih =>
      obtain ⟨a, b⟩ := p
      simp only [List.map_cons, List.nodup_cons] at h
      obtain ⟨ha, hrest⟩ := h
      by_cases hk : a = k
      · subst hk
        rw [show dinsert a v ((a, b) :: rest) = (a, v) :: rest from by
          simp [dinsert]]
        simp only [List.map_cons, List.nodup_cons]
        exact ⟨ha, hrest⟩
      · simp only [dinsert, if_neg hk, List.map_cons, List.nodup_cons]
        refine ⟨?_, ih hrest⟩
        intro hmem
        rcases (mem_keys_dinsert v rest).mp hmem with h | h
        · exact hk h
        · exact ha h

theorem mem_dinsert {κ ν : Type} [DecidableEq κ] {p : κ × ν} {k : κ} {v : ν}
    {m : Dict κ ν} (h : p ∈ dinsert k v m) : p = (k, v) ∨ p ∈ m := by
  induction m with
  | nil => simpa [dinsert] using h
  | cons q rest ih =>
      obtain ⟨a, b⟩ := q
      by_cases ha : a = k
      · subst ha
        rcases List.mem_cons.mp (by simpa [dinsert] using h) with h' | h'
        · exact Or.inl h'
        · exact Or.inr (List.mem_cons.mpr (Or.inr h'))
      · rcases List.mem_cons.mp (by simpa [dinsert, ha] using h) with h' | h'
        · exact Or.inr (List.mem_cons.mpr (Or.inl h'))
        · rcases ih h' with h'' | h''
          · exact Or.inl h''
          · exact Or.inr (List.mem_cons.mpr (Or.inr h''))

theorem dlookup_of_mem {κ ν : Type} [DecidableEq κ] {m : Dict κ ν} {k : κ}
    {v : ν} (hnd : (m.map Prod.fst).Nodup) (hmem : (k, v) ∈ m) :
    dlookup k m = some v := by
  induction m with
  | nil => cases hmem
  | cons p rest ih =>
      obtain ⟨a, b⟩ := p
      simp only [List.map_cons, List.nodup_cons] at hnd
      rcases List.mem_cons.mp hmem with h | h
      · have h' := h
        rw [Prod.mk.injEq] at h'
        obtain ⟨rfl, rfl⟩ := h'
        simp [dlookup]
      · have hak : a ≠ k := by
          intro hEq
          subst hEq
          exact hnd.1 (List.mem_map_of_mem Prod.fst h)
        simp only [dlookup, if_neg hak]
        exact ih hnd.2 h

theorem mem_of_dlookup {κ ν : Type} [DecidableEq κ] {m : Dict κ ν} {k : κ}
    {v : ν} (h : dlookup k m = some v) : (k, v) ∈ m := by
  induction m with
  | nil => simp [dlookup] at h
  | cons p rest ih =>
      obtain ⟨a, b⟩ := p
      by_cases hak : a = k
      · subst hak
        have h' : b = v := by simpa [dlookup] using h
        subst h'
        exact List.mem_cons.mpr (Or.inl rfl)
      · simp only [dlookup, if_neg hak] at h
        exact List.mem_cons.mpr (Or.inr (ih h))

theorem mem_dvalues {κ ν : Type} {m : Dict κ ν} {v : ν} :
    v ∈ dvalues m ↔ ∃ k, (k, v) ∈ m := by
  simp only [dvalues, List.mem_map]
  constructor
  · rintro ⟨⟨k, v'⟩, hmem, rfl⟩
    exact ⟨k, hmem⟩
  · rintro ⟨k, hmem⟩
    exact ⟨(k, v), hmem, rfl⟩

theorem dlookup_mergePhase1 (fw : ℚ) (f : List ScoredDoc)
    (m : Dict String MergeEntry) (d : String)
    (hf : (f.map (·.doc_id)).Nodup) :
    dlookup d (f.foldl (fun scores r =>
        dinsert r.doc_id ⟨r.doc_id, r.score * fw, "faiss"⟩ scores) m)
      = match f.find? (fun r => r.doc_id == d) with
        | some r => some ⟨d, r.score * fw, "faiss"⟩
        | none => dlookup d m := by
  induction f generalizing m with
  | nil => simp
  | cons r rest ih =>
      simp only [List.map_cons, List.nodup_cons] at hf
      obtain ⟨hrd, hrest⟩ := hf
      by_cases hd : r.doc_id = d
      · have hbeq : (r.doc_id == d) = true := by simp [hd]
        have hnone : rest.find? (fun x : ScoredDoc => x.doc_id == d) = none := by
          apply List.find?_eq_none.mpr
          intro x hx
          simp only [beq_iff_eq]
          intro hEq
          have hmem : x.doc_id ∈ rest.map (fun y : ScoredDoc => y.doc_id) :=
            List.mem_map_of_mem _ hx
          rw [hEq, ← hd] at hmem
          exact hrd hmem
        rw [List.foldl_cons, ih _ hrest, hnone]
        simp only [List.find?, hbeq]
        subst hd
        exact dlookup_dinsert_self _ _ m
      · have hbeq : (r.doc_id == d) = false := by simp [hd]
        rw [List.foldl_cons, ih _ hrest]
        simp only [List.find?, hbeq]
        cases hfind : rest.find? (fun x : ScoredDoc => x.doc_id == d) with
        | some r' => rfl
        | none => simp [hfind, dlookup_dinsert_ne _ _ hd]

theorem dlookup_mergePhase2 (gwt : ℚ) (g : List ScoredDoc)
    (m : Dict String MergeEntry) (d : String)
    (hg : (g.map (·.doc_id)).Nodup) :
    dlookup d (mergePhase2 gwt g m)
      = match g.find? (fun r => r.doc_id == d), dlookup d m with
        | some r, some e => some ⟨e.doc_id, e.score + r.score * gwt, "hybrid"⟩
        | some r, none => some ⟨d, r.score * gwt, "graph"⟩
        | none, _ => dlookup d m := by
  induction g generalizing m with
  | nil => simp [mergePhase2]
  | cons r rest ih =>
      simp only [List.map_cons, List.nodup_cons] at hg
      obtain ⟨hrd, hrest⟩ := hg
      simp only [mergePhase2, List.foldl_cons] at ih ⊢
      by_cases hd : r.doc_id = d
      · have hbeq : (r.doc_id == d) = true := by simp [hd]
        have hnone : rest.find? (fun x : ScoredDoc => x.doc_id == d) = none := by
          apply List.find?_eq_none.mpr
          intro x hx
          simp only [beq_iff_eq]
          intro hEq
          have hmem : x.doc_id ∈ rest.map (fun y : ScoredDoc => y.doc_id) :=
            List.mem_map_of_mem _ hx
          rw [hEq, ← hd] at hmem
          exact hrd hmem
        rw [ih _ hrest, hnone]
        simp only [List.find?, hbeq]
        subst hd
        cases hm : dlookup r.doc_id m with
        | some e => simp [hm, dlookup_dinsert_self]
        | none => simp [hm, dlookup_dinsert_self]
      · have hbeq : (r.doc_id == d) = false := by simp [hd]
        have hstep : dlookup d (match dlookup r.doc_id m with
            | some e =>
                dinsert r.doc_id ⟨e.doc_id, e.score + r.score * gwt, "hybrid"⟩ m
            | none =>
                dinsert r.doc_id ⟨r.doc_id, r.score * gwt, "graph"⟩ m)
            = dlookup d m := by
          cases hm : dlookup r.doc_id m with
          | some e => simp [hm, dlookup_dinsert_ne _ _ hd]
          | none => simp [hm, dlookup_dinsert_ne _ _ hd]
        rw [ih _ hrest, hstep]
        simp only [List.find?, hbeq]

/-- Combined characterization of the fused `scores` dict. -/
theorem dlookup_fused (f g : List ScoredDoc) (fw gwt : ℚ) (d : String)
    (hf : (f.map (·.doc_id)).Nodup) (hg : (g.map (·.doc_id)).Nodup) :
    dlookup d (mergePhase2 gwt g (mergePhase1 fw f))
      = match f.find? (fun r => r.doc_id == d), g.find? (fun r => r.doc_id == d) with
        | some rf, some rg => some ⟨d, rf.score * fw + rg.score * gwt, "hybrid"⟩
        | some rf, none => some ⟨d, rf.score * fw, "faiss"⟩
        | none, some rg => some ⟨d, rg.score * gwt, "graph"⟩
        | none, none => none := by
  rw [dlookup_mergePhase2 gwt g _ d hg]
  rw [show dlookup d (mergePhase1 fw f)
      = match f.find? (fun r => r.doc_id == d) with
        | some r => some ⟨d, r.score * fw, "faiss"⟩
        | none => (none : Option MergeEntry)
    from by simpa [mergePhase1] using dlookup_mergePhase1 fw f [] d hf]
  cases hff : f.find? (fun r => r.doc_id == d) <;>
    cases hgf : g.find? (fun r => r.doc_id == d) <;> rfl

theorem mergePhase1_keysNodup (fw : ℚ) (f : List ScoredDoc)
    (m : Dict String MergeEntry) (h : (m.map Prod.fst).Nodup) :
    ((f.foldl (fun scores r =>
        dinsert r.doc_id ⟨r.doc_id, r.score * fw, "faiss"⟩ scores) m).map
      Prod.fst).Nodup := by
  induction f generalizing m with
  | nil => simpa using h
  | cons r rest ih =>
      rw [List.foldl_cons]
      exact ih _ (dictKeysNodup_dinsert _ _ h)

theorem mergePhase2_keysNodup (gwt : ℚ) (g : List ScoredDoc)
    (m : Dict String MergeEntry) (h : (m.map Prod.fst).Nodup) :
    ((mergePhase2 gwt g m).map Prod.fst).Nodup := by
  induction g generalizing m with
  | nil => simpa [mergePhase2] using h
  | cons r rest ih =>
      simp only [mergePhase2, List.foldl_cons] at ih ⊢
      cases hm : dlookup r.doc_id m with
      | some e => exact ih _ (dictKeysNodup_dinsert _ _ h)
      | none => exact ih _ (dictKeysNodup_dinsert _ _ h)

theorem entriesKeyed_dinsert {m : Dict String MergeEntry} {k : String}
    {v : MergeEntry} (h : entriesKeyed m) (hv : v.doc_id = k) :
    entriesKeyed (dinsert k v m) := by
  intro p hp
  rcases mem_dinsert hp with rfl | hp
  · exact hv
  · exact h p hp

theorem mergePhase1_entriesKeyed (fw : ℚ) (f : List ScoredDoc)
    (m : Dict String MergeEntry) (h : entriesKeyed m) :
    entriesKeyed (f.foldl (fun scores r =>
      dinsert r.doc_id ⟨r.doc_id, r.score * fw, "faiss"⟩ scores) m) := by
  induction f generalizing m with
  | nil => simpa using h
  | cons r rest ih =>
      rw [List.foldl_cons]
      exact ih _ (entriesKeyed_dinsert h rfl)

theorem mergePhase2_entriesKeyed (gwt : ℚ) (g : List ScoredDoc)
    (m : Dict String MergeEntry) (h : entriesKeyed m) :
    entriesKeyed (mergePhase2 gwt g m) := by
  induction g generalizing m with
  | nil => simpa [mergePhase2] using h
  | cons r rest ih =>
      simp only [mergePhase2, List.foldl_cons] at ih ⊢
      cases hm : dlookup r.doc_id m with
      | some e =>
          refine ih _ (entriesKeyed_dinsert h ?_)
          exact h _ (mem_of_dlookup hm)
      | none => exact ih _ (entriesKeyed_dinsert h rfl)

/-- Field characterization of one fused entry that the `scores` dict stores
under its own doc_id. -/
theorem fused_entry_fields (f g : List ScoredDoc) (fw gwt : ℚ)
    (hf : (f.map (·.doc_id)).Nodup) (hg : (g.map (·.doc_id)).Nodup)
    (e : MergeEntry)
    (hlook : dlookup e.doc_id (mergePhase2 gwt g (mergePhase1 fw f)) = some e) :
    e.score = (lookupScore f e.doc_id).getD 0 * fw
      + (lookupScore g e.doc_id).getD 0 * gwt ∧
    e.source = (if (lookupScore f e.doc_id).isSome then
        (if (lookupScore g e.doc_id).isSome then "hybrid" else "faiss")
      else "graph") ∧
    ((lookupScore f e.doc_id).isSome ∨ (lookupScore g e.doc_id).isSome) := by
  rw [dlookup_fused f g fw gwt e.doc_id hf hg] at hlook
  cases hff : f.find? (fun r => r.doc_id == e.doc_id) with
  | some rf =>
      cases hgf : g.find? (fun r => r.doc_id == e.doc_id) with
      | some rg =>
          simp only [hff, hgf] at hlook
          have hE := Option.some.inj hlook
          refine ⟨?_, ?_, Or.inl (by simp [lookupScore, hff])⟩
          · rw [← hE]
            simp [lookupScore, hff, hgf]
          · rw [← hE]
            simp [lookupScore, hff, hgf]
      | none =>
          simp only [hff, hgf] at hlook
          have hE := Option.some.inj hlook
          refine ⟨?_, ?_, Or.inl (by simp [lookupScore, hff])⟩
          · rw [← hE]
            simp [lookupScore, hff, hgf]
          · rw [← hE]
            simp [lookupScore, hff, hgf]
  | none =>
      cases hgf : g.find? (fun r => r.doc_id == e.doc_id) with
      | some rg =>
          simp only [hff, hgf] at hlook
          have hE := Option.some.inj hlook
          refine ⟨?_, ?_, Or.inr (by simp [lookupScore, hgf])⟩
          · rw [← hE]
            simp [lookupScore, hff, hgf]
          · rw [← hE]
            simp [lookupScore, hff, hgf]
      | none =>
          simp only [hff, hgf] at hlook
          exact absurd hlook (by simp)

/-- C2: `_merge_results` fuses the two candidate lists keyed by doc_id with
`score = vecScore*vectorWeight + graphScore*graphWeight`, a side missing a
doc_id contributing 0 (never skipping the doc); the fused list is sorted by
score descending; entries are tagged `"hybrid"` when both sides contributed,
else the vector-side tag (`"faiss"`) or `"graph"`; on vector scores
`{A: 0.9}`, graph scores `{B: 0.8}` and weights 0.6/0.4, A scores 0.54
(vector-only), B scores 0.32 (graph-only), and A ranks first. -/
theorem merge_results_weighted_fusion (f g : List ScoredDoc) (fw gwt : ℚ)
    (hf : (f.map (·.doc_id)).Nodup) (hg : (g.map (·.doc_id)).Nodup) :
    (∀ e ∈ merge_results f g fw gwt,
       e.score = (lookupScore f e.doc_id).getD 0 * fw
         + (lookupScore g e.doc_id).getD 0 * gwt ∧
       e.source = (if (lookupScore f e.doc_id).isSome then
           (if (lookupScore g e.doc_id).isSome then "hybrid" else "faiss")
         else "graph") ∧
       ((lookupScore f e.doc_id).isSome ∨ (lookupScore g e.doc_id).isSome)) ∧
    (∀ d : String, ((lookupScore f d).isSome ∨ (lookupScore g d).isSome) →
       ∃ e ∈ merge_results f g fw gwt, e.doc_id = d) ∧
    (merge_results f g fw gwt).Pairwise (fun a b => b.score ≤ a.score) ∧
    merge_results [⟨"A", 9/10⟩] [⟨"B", 8/10⟩] (6/10) (4/10)
      = [⟨"A", 27/50, "faiss"⟩, ⟨"B", 8/25, "graph"⟩] := by
  have hknd : ((mergePhase2 gwt g (mergePhase1 fw f)).map Prod.fst).Nodup :=
    mergePhase2_keysNodup gwt g _ (mergePhase1_keysNodup fw f [] (by simp))
  have hkeyed : entriesKeyed (mergePhase2 gwt g (mergePhase1 fw f)) :=
    mergePhase2_entriesKeyed gwt g _ (mergePhase1_entriesKeyed fw f []
      (by intro p hp; cases hp))
  refine ⟨?_, ?_, ?_, ?_⟩
  · intro e he
    have he' : e ∈ sortDescBy (fun x : MergeEntry => x.score)
        (dvalues (mergePhase2 gwt g (mergePhase1 fw f))) := he
    have hmem : e ∈ dvalues (mergePhase2 gwt g (mergePhase1 fw f)) :=
      (sortDescBy_perm (fun x : MergeEntry => x.score) _).mem_iff.mp he'
    obtain ⟨k, hk⟩ := mem_dvalues.mp hmem
    have hks : e.doc_id = k := hkeyed _ hk
    have hlook : dlookup e.doc_id (mergePhase2 gwt g (mergePhase1 fw f)) = some e := by
      rw [hks]
      exact dlookup_of_mem hknd hk
    exact fused_entry_fields f g fw gwt hf hg e hlook
  · intro d hd
    have hex : ∃ v, dlookup d (mergePhase2 gwt g (mergePhase1 fw f)) = some v ∧
        v.doc_id = d := by
      rw [dlookup_fused f g fw gwt d hf hg]
      rcases hd with hdf | hdg
      · obtain ⟨rf, hrf⟩ := Option.isSome_iff_exists.mp hdf
        obtain ⟨x, hx⟩ := Option.map_eq_some'.mp hrf
        cases hgf : g.find? (fun r => r.doc_id == d) with
        | some rg =>
            exact ⟨⟨d, x.score * fw + rg.score * gwt, "hybrid"⟩,
              by simp [hx.1, hgf], rfl⟩
        | none =>
            exact ⟨⟨d, x.score * fw, "faiss"⟩, by simp [hx.1, hgf], rfl⟩
      · obtain ⟨rg, hrg⟩ := Option.isSome_iff_exists.mp hdg
        obtain ⟨x, hx⟩ := Option.map_eq_some'.mp hrg
        cases hff : f.find? (fun r => r.doc_id == d) with
        | some rf =>
            exact ⟨⟨d, rf.score * fw + x.score * gwt, "hybrid"⟩,
              by simp [hx.1, hff], rfl⟩
        | none =>
            exact ⟨⟨d, x.score * gwt, "graph"⟩, by simp [hx.1, hff], rfl⟩
    obtain ⟨v, hv, hvd⟩ := hex
    refine ⟨v, ?_, hvd⟩
    exact (sortDescBy_perm (·.score) _).mem_iff.mpr
      (mem_dvalues.mpr ⟨d, mem_of_dlookup hv⟩)
  · exact sortDescBy_sorted _ _
  · norm_num +decide [merge_results, mergePhase1, mergePhase2, sortDescBy,
      insertDesc, dvalues, dinsert, dlookup]

theorem merge_results_weighted_fusion_witness :
    (exampleFaissRows.map (·.doc_id)).Nodup ∧
    (exampleGraphRows.map (·.doc_id)).Nodup ∧
    ((∀ e ∈ merge_results exampleFaissRows exampleGraphRows (6/10) (4/10),
       e.score = (lookupScore exampleFaissRows e.doc_id).getD 0 * (6/10)
         + (lookupScore exampleGraphRows e.doc_id).getD 0 * (4/10) ∧
       e.source = (if (lookupScore exampleFaissRows e.doc_id).isSome then
           (if (lookupScore exampleGraphRows e.doc_id).isSome then "hybrid" else "faiss")
         else "graph") ∧
       ((lookupScore exampleFaissRows e.doc_id).isSome ∨
         (lookupScore exampleGraphRows e.doc_id).isSome)) ∧
    (∀ d : String, ((lookupScore exampleFaissRows d).isSome ∨
        (lookupScore exampleGraphRows d).isSome) →
       ∃ e ∈ merge_results exampleFaissRows exampleGraphRows (6/10) (4/10),
         e.doc_id = d) ∧
    (merge_results exampleFaissRows exampleGraphRows (6/10) (4/10)).Pairwise
      (fun a b => b.score ≤ a.score) ∧
    merge_results [⟨"A", 9/10⟩] [⟨"B", 8/10⟩] (6/10) (4/10)
      = [⟨"A", 27/50, "faiss"⟩, ⟨"B", 8/25, "graph"⟩]) :=
  ⟨by decide, by decide,
   merge_results_weighted_fusion exampleFaissRows exampleGraphRows (6/10) (4/10)
     (by decide) (by decide)⟩

theorem list_contains_iff (l : List String) (x : String) :
    l.contains x = true ↔ x ∈ l := by
  induction l with
  | nil => simp
  | cons a t ih => simp [List.contains]

theorem expandRelatedStep_inv {initial : List GraphRow} {s : GraphRow}
    (hs : s ∈ initial.take 5) {acc : List GraphRow × List String}
    (h : ExpandInv initial acc) (r : RelatedDoc) :
    ExpandInv initial (expandRelatedStep s acc r) := by
  unfold expandRelatedStep
  by_cases hc : r.doc_id ≠ "" ∧ ¬ acc.2.contains r.doc_id
  · rw [if_pos hc]
    obtain ⟨⟨extras, hexp, hgood⟩, hiff, hnodup⟩ := h
    obtain ⟨hne, hnc⟩ := hc
    have hnotmem : r.doc_id ∉ acc.1.map (·.doc_id) := by
      intro hm
      exact hnc ((list_contains_iff _ _).mpr ((hiff _).mpr hm))
    have hnotinit : r.doc_id ∉ initial.map (·.doc_id) := by
      intro hm
      apply hnotmem
      rw [hexp, List.map_append]
      exact List.mem_append.mpr (Or.inl hm)
    show ExpandInv initial
      (acc.1 ++ [GraphRow.mk r.doc_id (s.score * (7/10) ^ (r.distance.getD 1))
          "graph_expanded" (some (r.distance.getD 1)) (some s.doc_id)],
        r.doc_id :: acc.2)
    refine ⟨⟨extras ++ [GraphRow.mk r.doc_id
        (s.score * (7/10) ^ (r.distance.getD 1)) "graph_expanded"
        (some (r.distance.getD 1)) (some s.doc_id)], ?_, ?_⟩, ?_, ?_⟩
    · show acc.1 ++ _ = initial ++ (extras ++ _)
      rw [hexp, List.append_assoc]
    · intro e he
      rcases List.mem_append.mp he with he | he
      · exact hgood e he
      · rcases List.mem_singleton.mp he with rfl
        exact ⟨⟨s, hs, rfl, r.distance.getD 1, rfl, rfl⟩, hnotinit⟩
    · intro x
      show x ∈ r.doc_id :: acc.2 ↔ _
      simp only [List.mem_cons, List.map_append, List.mem_append,
        List.map_cons, List.map_nil, List.mem_singleton, hiff x]
      tauto
    · show ((acc.1 ++ _).map (·.doc_id)).Nodup
      rw [List.map_append]
      refine List.nodup_append.mpr ⟨hnodup, List.nodup_singleton _, ?_⟩
      intro a ha hb
      rcases List.mem_singleton.mp (by simpa using hb) with rfl
      exact hnotmem ha
  · rw [if_neg hc]
    exact h

theorem expandRelated_fold_inv {initial : List GraphRow} {s : GraphRow}
    (hs : s ∈ initial.take 5) (rel : List RelatedDoc) :
    ∀ acc : List GraphRow × List String, ExpandInv initial acc →
      ExpandInv initial (rel.foldl (expandRelatedStep s) acc) := by
  induction rel with
  | nil => intro acc h; simpa using h
  | cons r rest ih =>
      intro acc h
      rw [List.foldl_cons]
      exact ih _ (expandRelatedStep_inv hs h r)

theorem expandSeeds_fold_inv (initial : List GraphRow)
    (related : String → Except Unit (List RelatedDoc)) :
    ∀ (ts : List GraphRow) (acc : List GraphRow × List String),
      (∀ s ∈ ts, s ∈ initial.take 5) → ExpandInv initial acc →
      ExpandInv initial (ts.foldl
        (fun acc seed =>
          match related seed.doc_id with
          | .ok rel => rel.foldl (expandRelatedStep seed) acc
          | .error _ => acc) acc) := by
  intro ts
  induction ts with
  | nil => intro acc _ h; simpa using h
  | cons s rest ih =>
      intro acc hts h
      rw [List.foldl_cons]
      have hsub : ∀ x ∈ rest, x ∈ initial.take 5 := fun x hx =>
        hts x (List.mem_cons.mpr (Or.inr hx))
      have hstep : ExpandInv initial
          (match related s.doc_id with
           | .ok rel => rel.foldl (expandRelatedStep s) acc
           | .error _ => acc) := by
        cases hr : related s.doc_id with
        | ok rel =>
            exact expandRelated_fold_inv (hts s (List.mem_cons.mpr (Or.inl rfl)))
              rel acc h
        | error e => exact h
      exact ih _ hsub hstep

theorem firstOccAux_cons_mem (seen : List String) (e : GraphRow)
    (es : List GraphRow) (h : seen.contains e.doc_id = true) :
    firstOccAux seen (e :: es) = firstOccAux seen es := by
  simp only [firstOccAux]
  rw [if_pos h]

theorem firstOccAux_cons_fresh (seen : List String) (e : GraphRow)
    (es : List GraphRow) (h : seen.contains e.doc_id = false) :
    firstOccAux seen (e :: es)
      = (e :: (firstOccAux (e.doc_id :: seen) es).1,
         (firstOccAux (e.doc_id :: seen) es).2) := by
  simp only [firstOccAux]
  rw [if_neg]
  rw [h]
  exact Bool.false_ne_true

theorem expandRelated_fold_firstOcc (s : GraphRow) (rel : List RelatedDoc) :
    ∀ acc : List GraphRow × List String,
      rel.foldl (expandRelatedStep s) acc
        = (acc.1 ++ (firstOccAux acc.2
             ((rel.filter (fun rd => decide (rd.doc_id ≠ ""))).map
               (expandSpecRow s))).1,
           (firstOccAux acc.2
             ((rel.filter (fun rd => decide (rd.doc_id ≠ ""))).map
               (expandSpecRow s))).2) := by
  induction rel with
  | nil => intro acc; simp [firstOccAux]
  | cons r rest ih =>
      intro acc
      rw [List.foldl_cons]
      by_cases he : r.doc_id = ""
      · have hstep : expandRelatedStep s acc r = acc := by
          unfold expandRelatedStep
          rw [if_neg]
          rintro ⟨hne, -⟩
          exact hne he
        have hfil : (r :: rest).filter (fun rd => decide (rd.doc_id ≠ ""))
            = rest.filter (fun rd => decide (rd.doc_id ≠ "")) := by
          simp [List.filter_cons, he]
        rw [hstep, hfil]
        exact ih acc
      · have hfil : (r :: rest).filter (fun rd => decide (rd.doc_id ≠ ""))
            = r :: rest.filter (fun rd => decide (rd.doc_id ≠ "")) := by
          simp [List.filter_cons, he]
        rw [hfil, List.map_cons]
        by_cases hc : acc.2.contains r.doc_id = true
        · have hstep : expandRelatedStep s acc r = acc := by
            unfold expandRelatedStep
            rw [if_neg]
            rintro ⟨-, hnc⟩
            exact hnc hc
          rw [hstep, firstOccAux_cons_mem _ _ _ hc]
          exact ih acc
        · have hcb : acc.2.contains r.doc_id = false :=
            Bool.eq_false_iff.mpr hc
          have hstep : expandRelatedStep s acc r
              = (acc.1 ++ [expandSpecRow s r], r.doc_id :: acc.2) := by
            unfold expandRelatedStep
            rw [if_pos ⟨he, hc⟩]
            rfl
          rw [hstep, firstOccAux_cons_fresh _ _ _ hcb,
            ih (acc.1 ++ [expandSpecRow s r], r.doc_id :: acc.2)]
          simp [expandSpecRow, List.append_assoc]

theorem firstOccAux_append (as bs : List GraphRow) :
    ∀ seen : List String,
      firstOccAux seen (as ++ bs)
        = ((firstOccAux seen as).1
             ++ (firstOccAux (firstOccAux seen as).2 bs).1,
           (firstOccAux (firstOccAux seen as).2 bs).2) := by
  induction as with
  | nil => intro seen; simp [firstOccAux]
  | cons e as ih =>
      intro seen
      by_cases hc : seen.contains e.doc_id = true
      · rw [List.cons_append, firstOccAux_cons_mem _ _ _ hc,
          firstOccAux_cons_mem _ _ _ hc]
        exact ih seen
      · have hcb : seen.contains e.doc_id = false := Bool.eq_false_iff.mpr hc
        rw [List.cons_append, firstOccAux_cons_fresh _ _ _ hcb,
          firstOccAux_cons_fresh _ _ _ hcb, ih (e.doc_id :: seen)]
        simp

theorem expandSeeds_fold_firstOcc
    (related : String → Except Unit (List RelatedDoc)) :
    ∀ (ts : List GraphRow) (acc : List GraphRow × List String),
      ts.foldl
        (fun acc seed =>
          match related seed.doc_id with
          | .ok rel => rel.foldl (expandRelatedStep seed) acc
          | .error _ => acc) acc
        = (acc.1 ++ (firstOccAux acc.2 (expandCandidates related ts)).1,
           (firstOccAux acc.2 (expandCandidates related ts)).2) := by
  intro ts
  induction ts with
  | nil => intro acc; simp [expandCandidates, firstOccAux]
  | cons s rest ih =>
      intro acc
      rw [List.foldl_cons]
      cases hr : related s.doc_id with
      | error e =>
          simp only [expandCandidates, hr, List.nil_append]
          exact ih acc
      | ok rel =>
          simp only [expandCandidates, hr]
          rw [expandRelated_fold_firstOcc s rel acc, ih, firstOccAux_append]
          simp [List.append_assoc]

/-- C7: `_expand_with_multi_hop` expands at most the top 5 seed results (the
output depends only on the related-docs oracle at those seeds); every appended
row has `score = seedScore * 0.7^d` for its hop distance `d`; the appended
suffix is exactly the first occurrence (in seed order, then oracle order) of
each fresh doc_id among the candidate rows of the top-5 seeds — a later
candidate with an already-seen doc_id is discarded, never overwriting the
kept row (in particular the initial rows come back verbatim as a prefix and
the appended doc_ids are fresh and pairwise distinct); concretely, a related
doc at hop distance 2 of a seed with score 1/2 gets `1/2 * 0.49 = 49/200`. -/
theorem expand_multi_hop_spec (initial : List GraphRow)
    (related : String → Except Unit (List RelatedDoc))
    (hnd : (initial.map (·.doc_id)).Nodup) :
    (∃ extras, expand_with_multi_hop initial related = initial ++ extras ∧
       (∀ e ∈ extras, GoodExpansion initial e) ∧
       ((initial ++ extras).map (·.doc_id)).Nodup) ∧
    (expand_with_multi_hop initial related
       = initial ++ firstOccurrences (initial.map (·.doc_id))
           (expandCandidates related (initial.take 5))) ∧
    (∀ related' : String → Except Unit (List RelatedDoc),
       (∀ s ∈ initial.take 5, related' s.doc_id = related s.doc_id) →
       expand_with_multi_hop initial related' = expand_with_multi_hop initial related) ∧
    expand_with_multi_hop [⟨"s", 1/2, "graph", none, none⟩]
        (fun _ => .ok [⟨"r", some 2⟩])
      = [⟨"s", 1/2, "graph", none, none⟩,
         ⟨"r", 49/200, "graph_expanded", some 2, some "s"⟩] := by
  refine ⟨?_, ?_, ?_, ?_⟩
  · have h0 : ExpandInv initial (initial, initial.map (·.doc_id)) :=
      ⟨⟨[], by simp, by intro e he; cases he⟩, fun x => Iff.rfl, hnd⟩
    have h := expandSeeds_fold_inv initial related (initial.take 5)
      (initial, initial.map (·.doc_id)) (fun s hs => hs) h0
    obtain ⟨⟨extras, hexp, hgood⟩, _, hnodup⟩ := h
    refine ⟨extras, ?_, hgood, ?_⟩
    · unfold expand_with_multi_hop
      exact hexp
    · rw [← hexp]
      exact hnodup
  · show (List.foldl _ (initial, initial.map (·.doc_id)) (initial.take 5)).1
      = initial ++ firstOccurrences (initial.map (·.doc_id))
          (expandCandidates related (initial.take 5))
    rw [expandSeeds_fold_firstOcc related (initial.take 5)
      (initial, initial.map (·.doc_id))]
    rfl
  · intro related' heq
    have core : ∀ (ts : List GraphRow) (acc : List GraphRow × List String),
        (∀ s ∈ ts, related' s.doc_id = related s.doc_id) →
        ts.foldl (fun acc seed =>
          match related' seed.doc_id with
          | .ok rel => rel.foldl (expandRelatedStep seed) acc
          | .error _ => acc) acc
        = ts.foldl (fun acc seed =>
          match related seed.doc_id with
          | .ok rel => rel.foldl (expandRelatedStep seed) acc
          | .error _ => acc) acc := by
      intro ts
      induction ts with
      | nil => intro acc _; rfl
      | cons s rest ih =>
          intro acc hts
          rw [List.foldl_cons, List.foldl_cons,
            hts s (List.mem_cons.mpr (Or.inl rfl))]
          exact ih _ (fun x hx => hts x (List.mem_cons.mpr (Or.inr hx)))
    show (List.foldl _ (initial, initial.map (·.doc_id)) (initial.take 5)).1
      = (List.foldl _ (initial, initial.map (·.doc_id)) (initial.take 5)).1
    rw [core (initial.take 5) (initial, initial.map (·.doc_id)) heq]
  · norm_num +decide [expand_with_multi_hop, expandRelatedStep, List.contains]

theorem expand_multi_hop_spec_witness :
    (([⟨"s", 1/2, "graph", none, none⟩] : List GraphRow).map (·.doc_id)).Nodup ∧
    (∃ extras,
       expand_with_multi_hop [⟨"s", 1/2, "graph", none, none⟩]
           (fun _ => .ok [⟨"r", some 2⟩])
         = [⟨"s", 1/2, "graph", none, none⟩] ++ extras ∧
       (∀ e ∈ extras, GoodExpansion [⟨"s", 1/2, "graph", none, none⟩] e) ∧
       (([⟨"s", 1/2, "graph", none, none⟩] ++ extras).map (·.doc_id)).Nodup) :=
  ⟨by decide,
   (expand_multi_hop_spec [⟨"s", 1/2, "graph", none, none⟩]
     (fun _ => .ok [⟨"r", some 2⟩]) (by decide)).1⟩

/-- C6 counterexample: on the non-blank query "hello world" with the entity
extractor succeeding with an *empty* list, no fallback tokenization happens —
the fallback tokenizer would have produced `["hello", "world"]`, yet
`_extract_entities` returns `[]` and `retrieve` returns `[]` without ever
querying the graph store (which here would have returned a hit). -/
theorem retrieve_no_fallback_on_empty_cex :
    GraphRetriever.extract_entities (Except.ok [])
      (some (fun _ => ["hello", "world"])) "hello world" = [] ∧
    fallback_extract (some (fun _ => ["hello", "world"])) "hello world"
      = ["hello", "world"] ∧
    GraphRetriever.retrieve (Except.ok []) (some (fun _ => ["hello", "world"]))
      (fun _ _ => [⟨"d1", 1, "graph", none, none⟩]) (fun _ => Except.ok [])
      true "hello world" 10 = [] := by
  refine ⟨rfl, by decide, ?_⟩
  have hb : pyBlank "hello world" = false := by decide
  simp [GraphRetriever.retrieve, hb, GraphRetriever.extract_entities]

/-- C6 (amended): `GraphRetriever` falls back to the naive tokenizer only
when the entity extractor *raises* — when the optional `jieba` segmenter is
importable, its tokens of length ≤ 1 and the small stopword set are dropped;
when it is not, the raw whitespace split of the query is returned with no
filtering; when the extractor succeeds with an empty entity list the
fallback is skipped and `retrieve` returns `[]`; and whenever extraction
yields no entities, `retrieve` returns the empty result list rather than
raising. -/
theorem graph_retriever_fallback_spec
    (lcut : String → List String) (query : String)
    (search_by_entities : List String → Nat → List GraphRow)
    (related : String → Except Unit (List RelatedDoc))
    (enable_multi_hop : Bool) (top_k : Nat) :
    (GraphRetriever.extract_entities (Except.error ()) (some lcut) query
       = (lcut query).filter
           (fun w => decide (1 < w.length) && !(fallbackStopwords.contains w))) ∧
    (GraphRetriever.extract_entities (Except.error ()) none query
       = pySplit query) ∧
    (∀ jieba : Option (String → List String),
       GraphRetriever.retrieve (Except.ok []) jieba search_by_entities related
         enable_multi_hop query top_k = []) ∧
    (∀ (jieba : Option (String → List String))
       (ner : Except Unit (List Entity)),
       GraphRetriever.extract_entities ner jieba query = [] →
       GraphRetriever.retrieve ner jieba search_by_entities related
         enable_multi_hop query top_k = []) := by
  refine ⟨rfl, rfl, ?_, ?_⟩
  · intro jieba
    by_cases hb : pyBlank query
    · simp [GraphRetriever.retrieve, hb]
    · simp [GraphRetriever.retrieve, hb, GraphRetriever.extract_entities]
  · intro jieba ner h
    by_cases hb : pyBlank query
    · simp [GraphRetriever.retrieve, hb]
    · simp [GraphRetriever.retrieve, hb, h]

theorem graph_retriever_fallback_spec_witness :
    GraphRetriever.extract_entities (Except.ok []) none "hi" = [] ∧
    GraphRetriever.retrieve (Except.ok []) none
      (fun _ _ => []) (fun _ => Except.ok []) true "hi" 5 = [] :=
  ⟨by decide,
   (graph_retriever_fallback_spec (fun _ => ["hello", "world"]) "hi"
     (fun _ _ => []) (fun _ => Except.ok []) true 5).2.2.2 none (Except.ok [])
     (by decide)⟩

/-! ### FaissStore ID-map invariants (C10) -/

theorem insert_pair_inv (imap : Dict Nat String) (rmap : Dict String Nat)
    (fid : Nat) (d0 : String) (b : Nat) (hb : b ≤ fid)
    (hI1 : ∀ d f, dlookup d rmap = some f → dlookup f imap = some d)
    (hrb : ∀ d f, dlookup d rmap = some f → f < b)
    (hinj : ∀ d d' f, dlookup d rmap = some f → dlookup d' rmap = some f → d = d')
    (hib : ∀ f d, dlookup f imap = some d → f < b) :
    (∀ d f, dlookup d (dinsert d0 fid rmap) = some f →
       dlookup f (dinsert fid d0 imap) = some d) ∧
    (∀ d f, dlookup d (dinsert d0 fid rmap) = some f → f < fid + 1) ∧
    (∀ d d' f, dlookup d (dinsert d0 fid rmap) = some f →
       dlookup d' (dinsert d0 fid rmap) = some f → d = d') ∧
    (∀ f d, dlookup f (dinsert fid d0 imap) = some d → f < fid + 1) ∧
    (dlookup d0 rmap = none →
      (∀ f d, dlookup f imap = some d → dlookup d rmap = some f) →
      (∀ f d, dlookup f (dinsert fid d0 imap) = some d →
        dlookup d (dinsert d0 fid rmap) = some f)) := by
  refine ⟨?_, ?_, ?_, ?_, ?_⟩
  · intro d f h
    by_cases hd : d = d0
    · subst hd
      rw [dlookup_dinsert_self] at h
      obtain rfl := Option.some.inj h
      exact dlookup_dinsert_self _ _ _
    · rw [dlookup_dinsert_ne _ _ (fun hEq => hd hEq.symm)] at h
      have hf : f < b := hrb d f h
      have hfne : fid ≠ f := by omega
      rw [dlookup_dinsert_ne _ _ hfne]
      exact hI1 d f h
  · intro d f h
    by_cases hd : d = d0
    · subst hd
      rw [dlookup_dinsert_self] at h
      obtain rfl := Option.some.inj h
      omega
    · rw [dlookup_dinsert_ne _ _ (fun hEq => hd hEq.symm)] at h
      have := hrb d f h
      omega
  · intro d d' f hd hd'
    by_cases h1 : d = d0 <;> by_cases h2 : d' = d0
    · rw [h1, h2]
    · subst h1
      rw [dlookup_dinsert_self] at hd
      obtain rfl := Option.some.inj hd
      rw [dlookup_dinsert_ne _ _ (fun hEq => h2 hEq.symm)] at hd'
      have := hrb d' fid hd'
      omega
    · subst h2
      rw [dlookup_dinsert_self] at hd'
      obtain rfl := Option.some.inj hd'
      rw [dlookup_dinsert_ne _ _ (fun hEq => h1 hEq.symm)] at hd
      have := hrb d fid hd
      omega
    · rw [dlookup_dinsert_ne _ _ (fun hEq => h1 hEq.symm)] at hd
      rw [dlookup_dinsert_ne _ _ (fun hEq => h2 hEq.symm)] at hd'
      exact hinj d d' f hd hd'
  · intro f d h
    by_cases hf : f = fid
    · omega
    · rw [dlookup_dinsert_ne _ _ (fun hEq => hf hEq.symm)] at h
      have := hib f d h
      omega
  · intro hfresh hI2 f d h
    by_cases hf : f = fid
    · subst hf
      rw [dlookup_dinsert_self] at h
      obtain rfl := Option.some.inj h
      exact dlookup_dinsert_self _ _ _
    · rw [dlookup_dinsert_ne _ _ (fun hEq => hf hEq.symm)] at h
      have hr : dlookup d rmap = some f := hI2 f d h
      have hd : d ≠ d0 := by
        intro hEq
        subst hEq
        rw [hfresh] at hr
        cases hr
      rw [dlookup_dinsert_ne _ _ (fun hEq => hd hEq.symm)]
      exact hr

theorem mapLoop_bounds (ds : List String) :
    ∀ (fid : Nat) (s : FaissStore),
      (∀ d f, dlookup d s.reverse_id_map = some f →
         dlookup f s.id_map = some d) →
      (∀ d f, dlookup d s.reverse_id_map = some f → f < fid) →
      (∀ d d' f, dlookup d s.reverse_id_map = some f →
         dlookup d' s.reverse_id_map = some f → d = d') →
      (∀ f d, dlookup f s.id_map = some d → f < fid) →
      (∀ d f, dlookup d (FaissStore.mapLoop fid ds s).reverse_id_map = some f →
         dlookup f (FaissStore.mapLoop fid ds s).id_map = some d) ∧
      (∀ d f, dlookup d (FaissStore.mapLoop fid ds s).reverse_id_map = some f →
         f < fid + ds.length) ∧
      (∀ d d' f, dlookup d (FaissStore.mapLoop fid ds s).reverse_id_map = some f →
         dlookup d' (FaissStore.mapLoop fid ds s).reverse_id_map = some f → d = d') ∧
      (∀ f d, dlookup f (FaissStore.mapLoop fid ds s).id_map = some d →
         f < fid + ds.length) := by
  induction ds with
  | nil =>
      intro fid s h1 h2 h3 h4
      refine ⟨h1, fun d f h => ?_, h3, fun f d h => ?_⟩
      · have := h2 d f h
        simpa using this
      · have := h4 f d h
        simpa using this
  | cons d0 rest ih =>
      intro fid s h1 h2 h3 h4
      obtain ⟨k1, k2, k3, k4, _⟩ :=
        insert_pair_inv s.id_map s.reverse_id_map fid d0 fid (le_refl fid)
          h1 h2 h3 h4
      obtain ⟨t1, t2, t3, t4⟩ := ih (fid + 1)
        { s with id_map := dinsert fid d0 s.id_map
                 reverse_id_map := dinsert d0 fid s.reverse_id_map }
        k1 k2 k3 k4
      refine ⟨t1, fun d f h => ?_, t3, fun f d h => ?_⟩
      · have := t2 d f h
        simp only [List.length_cons]
        omega
      · have := t4 f d h
        simp only [List.length_cons]
        omega

theorem mapLoop_inv2 (ds : List String) :
    ∀ (fid : Nat) (s : FaissStore),
      (∀ f d, dlookup f s.id_map = some d → dlookup d s.reverse_id_map = some f) →
      ds.Nodup → (∀ d ∈ ds, dlookup d s.reverse_id_map = none) →
      (∀ f d, dlookup f (FaissStore.mapLoop fid ds s).id_map = some d →
        dlookup d (FaissStore.mapLoop fid ds s).reverse_id_map = some f) := by
  induction ds with
  | nil => intro fid s h2 _ _; simpa [FaissStore.mapLoop] using h2
  | cons d0 rest ih =>
      intro fid s h2 hnd hfresh
      simp only [List.nodup_cons] at hnd
      have hfresh0 : dlookup d0 s.reverse_id_map = none :=
        hfresh d0 (List.mem_cons.mpr (Or.inl rfl))
      have hstep : ∀ f d,
          dlookup f (dinsert fid d0 s.id_map) = some d →
          dlookup d (dinsert d0 fid s.reverse_id_map) = some f := by
        intro f d h
        by_cases hf : f = fid
        · subst hf
          rw [dlookup_dinsert_self] at h
          obtain rfl := Option.some.inj h
          exact dlookup_dinsert_self _ _ _
        · rw [dlookup_dinsert_ne _ _ (fun hEq => hf hEq.symm)] at h
          have hr := h2 f d h
          have hd : d ≠ d0 := by
            intro hEq
            subst hEq
            rw [hfresh0] at hr
            cases hr
          rw [dlookup_dinsert_ne _ _ (fun hEq => hd hEq.symm)]
          exact hr
      have hfresh' : ∀ d ∈ rest, dlookup d (dinsert d0 fid s.reverse_id_map) = none := by
        intro d hd
        have hne : d ≠ d0 := fun hEq => hnd.1 (hEq ▸ hd)
        rw [dlookup_dinsert_ne _ _ (fun hEq => hne hEq.symm)]
        exact hfresh d (List.mem_cons.mpr (Or.inr hd))
      simpa [FaissStore.mapLoop] using
        ih (fid + 1) _ hstep hnd.2 hfresh'

theorem mapLoop_ntotal (ds : List String) :
    ∀ (fid : Nat) (s : FaissStore),
      (FaissStore.mapLoop fid ds s).ntotal = s.ntotal := by
  induction ds with
  | nil => intro fid s; rfl
  | cons d rest ih => intro fid s; exact ih (fid + 1) _

theorem applyOp_storeInv (s : FaissStore) (op : FaissOp)
    (h : s.StoreInv) : (s.applyOp op).StoreInv := by
  obtain ⟨h1, h2, h3, h4⟩ := h
  cases op with
  | add e d0 =>
      obtain ⟨k1, k2, k3, k4, _⟩ :=
        insert_pair_inv s.id_map s.reverse_id_map s.ntotal d0 s.ntotal
          (le_refl _) h1 h2 h3 h4
      exact ⟨k1, k2, k3, k4⟩
  | add_batch es ds =>
      by_cases hlen : es.length ≠ ds.length
      · have happ : FaissStore.applyOp s (.add_batch es ds) = s := by
          simp [FaissStore.applyOp, FaissStore.add_batch, hlen]
        rw [happ]
        exact ⟨h1, h2, h3, h4⟩
      · have happ : FaissStore.applyOp s (.add_batch es ds)
            = FaissStore.mapLoop s.ntotal ds
                { s with ntotal := s.ntotal + ds.length } := by
          simp [FaissStore.applyOp, FaissStore.add_batch, hlen]
        rw [happ]
        obtain ⟨k1, k2, k3, k4⟩ := mapLoop_bounds ds s.ntotal
          { s with ntotal := s.ntotal + ds.length } h1 h2 h3 h4
        have hnt : (FaissStore.mapLoop s.ntotal ds
            { s with ntotal := s.ntotal + ds.length }).ntotal
            = s.ntotal + ds.length :=
          mapLoop_ntotal ds s.ntotal _
        refine ⟨k1, fun d f hx => ?_, k3, fun f d hx => ?_⟩
        · have := k2 d f hx
          omega
        · have := k4 f d hx
          omega
  | remove d0 =>
      simp only [FaissStore.applyOp, FaissStore.remove]
      cases hr : dlookup d0 s.reverse_id_map with
      | none => exact ⟨h1, h2, h3, h4⟩
      | some f0 =>
          refine ⟨?_, ?_, ?_, ?_⟩
          · intro d f hd
            have hdne : d ≠ d0 := by
              intro hEq
              subst hEq
              rw [dlookup_derase_self] at hd
              cases hd
            rw [dlookup_derase_ne _ (fun hEq => hdne hEq.symm)] at hd
            have hfne : f0 ≠ f := by
              intro hEq
              subst hEq
              exact hdne (h3 d d0 f0 hd hr)
            rw [dlookup_derase_ne _ hfne]
            exact h1 d f hd
          · intro d f hd
            by_cases hdne : d = d0
            · subst hdne
              rw [dlookup_derase_self] at hd
              cases hd
            · rw [dlookup_derase_ne _ (fun hEq => hdne hEq.symm)] at hd
              exact h2 d f hd
          · intro d d' f hd hd'
            by_cases hdne : d = d0
            · subst hdne
              rw [dlookup_derase_self] at hd
              cases hd
            · by_cases hdne' : d' = d0
              · subst hdne'
                rw [dlookup_derase_self] at hd'
                cases hd'
              · rw [dlookup_derase_ne _ (fun hEq => hdne hEq.symm)] at hd
                rw [dlookup_derase_ne _ (fun hEq => hdne' hEq.symm)] at hd'
                exact h3 d d' f hd hd'
          · intro f d hd
            by_cases hfne : f = f0
            · subst hfne
              rw [dlookup_derase_self] at hd
              cases hd
            · rw [dlookup_derase_ne _ (fun hEq => hfne hEq.symm)] at hd
              exact h4 f d hd

theorem applyOp_inv2 (s : FaissStore) (op : FaissOp) (hs : s.StoreInv)
    (h2 : s.Inv2)
    (hfresh : match op with
      | .add _ d => dlookup d s.reverse_id_map = none
      | .add_batch _ ds =>
          ds.Nodup ∧ ∀ d ∈ ds, dlookup d s.reverse_id_map = none
      | .remove _ => True) :
    (s.applyOp op).Inv2 := by
  obtain ⟨h1, hb, hinj, hib⟩ := hs
  cases op with
  | add e d0 =>
      obtain ⟨_, _, _, _, k5⟩ :=
        insert_pair_inv s.id_map s.reverse_id_map s.ntotal d0 s.ntotal
          (le_refl _) h1 hb hinj hib
      exact k5 hfresh h2
  | add_batch es ds =>
      obtain ⟨hnd, hf⟩ := hfresh
      by_cases hlen : es.length ≠ ds.length
      · have happ : FaissStore.applyOp s (.add_batch es ds) = s := by
          simp [FaissStore.applyOp, FaissStore.add_batch, hlen]
        rw [happ]
        exact h2
      · have happ : FaissStore.applyOp s (.add_batch es ds)
            = FaissStore.mapLoop s.ntotal ds
                { s with ntotal := s.ntotal + ds.length } := by
          simp [FaissStore.applyOp, FaissStore.add_batch, hlen]
        rw [happ]
        exact mapLoop_inv2 ds s.ntotal _ h2 hnd hf
  | remove d0 =>
      cases hr : dlookup d0 s.reverse_id_map with
      | none =>
          have happ : FaissStore.applyOp s (.remove d0) = s := by
            simp [FaissStore.applyOp, FaissStore.remove, hr]
          rw [happ]
          exact h2
      | some f0 =>
          have happ : FaissStore.applyOp s (.remove d0)
              = { s with id_map := derase f0 s.id_map
                         reverse_id_map := derase d0 s.reverse_id_map } := by
            simp [FaissStore.applyOp, FaissStore.remove, hr]
          rw [happ]
          intro f d hd
          have hfne : f ≠ f0 := by
            intro hEq
            subst hEq
            rw [dlookup_derase_self] at hd
            cases hd
          rw [dlookup_derase_ne _ (fun hEq => hfne hEq.symm)] at hd
          have hr' := h2 f d hd
          have hdne : d ≠ d0 := by
            intro hEq
            subst hEq
            rw [hr] at hr'
            exact hfne (Option.some.inj hr').symm
          rw [dlookup_derase_ne _ (fun hEq => hdne hEq.symm)]
          exact hr'

theorem runOps_storeInv (ops : List FaissOp) :
    ∀ s : FaissStore, s.StoreInv → (FaissStore.runOps s ops).StoreInv := by
  induction ops with
  | nil => intro s h; exact h
  | cons op rest ih => intro s h; exact ih _ (applyOp_storeInv s op h)

theorem runOps_inv2 (ops : List FaissOp) :
    ∀ s : FaissStore, s.StoreInv → s.Inv2 → FaissStore.FreshRun s ops →
      (FaissStore.runOps s ops).Inv2 := by
  induction ops with
  | nil => intro s _ h2 _; exact h2
  | cons op rest ih =>
      intro s hs h2 hf
      obtain ⟨hf1, hf2⟩ := hf
      exact ih _ (applyOp_storeInv s op hs) (applyOp_inv2 s op hs h2 hf1) hf2

theorem empty_storeInv : FaissStore.empty.StoreInv := by
  unfold FaissStore.StoreInv
  refine ⟨?_, ?_, ?_, ?_⟩
  · intro d f h
    simp [FaissStore.empty, dlookup] at h
  · intro d f h
    simp [FaissStore.empty, dlookup] at h
  · intro d d' f h h'
    simp [FaissStore.empty, dlookup] at h
  · intro f d h
    simp [FaissStore.empty, dlookup] at h

theorem empty_inv2 : FaissStore.empty.Inv2 := by
  intro f d h
  simp [FaissStore.empty, dlookup] at h

/-- C10 counterexample: adding doc_id "a" twice without an intervening
remove leaves the stale entry `id_map[0] = "a"` while
`reverse_id_map["a"] = 1`, so after the sequence `[add "a", add "a"]` the
two ID maps are not mutually inverse. -/
theorem faiss_id_maps_mutual_inverse_cex :
    ¬ (FaissStore.runOps FaissStore.empty
        [.add [] "a", .add [] "a"]).MutualInv := by
  intro h
  have h0 : dlookup 0 (FaissStore.runOps FaissStore.empty
      [.add [] "a", .add [] "a"]).id_map = some "a" := by decide
  have h1 := h.2 0 "a" h0
  have h2 : dlookup "a" (FaissStore.runOps FaissStore.empty
      [.add [] "a", .add [] "a"]).reverse_id_map = some 1 := by decide
  rw [h2] at h1
  exact absurd h1 (by decide)

/-- C10 (amended): after every sequence of `add`/`add_batch`/`remove` from
the empty store, `reverse_id_map` inverts into `id_map` (for every doc_id in
`reverse_id_map`, `id_map` maps its faiss id back to the doc_id); the
converse direction — and hence full mutual inversion — additionally holds
whenever no add re-inserts a doc_id that is already present (re-adding
without removing first leaves a stale `id_map` entry, see the
counterexample). -/
theorem faiss_id_maps_inverse_spec (ops : List FaissOp) :
    (∀ d f, dlookup d (FaissStore.runOps FaissStore.empty ops).reverse_id_map
        = some f →
       dlookup f (FaissStore.runOps FaissStore.empty ops).id_map = some d) ∧
    (FaissStore.FreshRun FaissStore.empty ops →
       (FaissStore.runOps FaissStore.empty ops).MutualInv) := by
  have hs := runOps_storeInv ops FaissStore.empty empty_storeInv
  exact ⟨hs.1, fun hf =>
    ⟨hs.1, runOps_inv2 ops FaissStore.empty empty_storeInv empty_inv2 hf⟩⟩

theorem faiss_id_maps_inverse_spec_witness :
    FaissStore.FreshRun FaissStore.empty
      [.add [] "a", .remove "a", .add [] "b"] ∧
    (FaissStore.runOps FaissStore.empty
      [.add [] "a", .remove "a", .add [] "b"]).MutualInv :=
  ⟨⟨rfl, trivial, rfl, trivial⟩,
   (faiss_id_maps_inverse_spec [.add [] "a", .remove "a", .add [] "b"]).2
     ⟨rfl, trivial, rfl, trivial⟩⟩

/-! ### Lifecycle management (C3) -/

theorem remove_rlookup_self (fs : FaissStore) (i : String) :
    dlookup i ((fs.remove i).2).reverse_id_map = none := by
  cases hr : dlookup i fs.reverse_id_map with
  | none => simp [FaissStore.remove, hr]
  | some f0 => simp [FaissStore.remove, hr, dlookup_derase_self]

theorem remove_rlookup_ne (fs : FaissStore) {i x : String} (h : i ≠ x) :
    dlookup x ((fs.remove i).2).reverse_id_map
      = dlookup x fs.reverse_id_map := by
  cases hr : dlookup i fs.reverse_id_map with
  | none => simp [FaissStore.remove, hr]
  | some f0 => simp [FaissStore.remove, hr, dlookup_derase_ne _ h]

theorem remove_rlookup_none (fs : FaissStore) {i x : String}
    (h : dlookup x fs.reverse_id_map = none) :
    dlookup x ((fs.remove i).2).reverse_id_map = none := by
  by_cases hix : i = x
  · subst hix
    exact remove_rlookup_self fs i
  · rw [remove_rlookup_ne fs hix]
    exact h

theorem hot_fold_split (docs : List Document) :
    ∀ acc : List Document × FaissStore,
      docs.foldl lifecycleHotStep acc
        = (docs.foldl hotDbStep acc.1, docs.foldl hotFsStep acc.2) := by
  induction docs with
  | nil =>
      intro acc
      obtain ⟨db, fs⟩ := acc
      rfl
  | cons doc rest ih =>
      intro acc
      have hstep : lifecycleHotStep acc doc
          = (hotDbStep acc.1 doc, hotFsStep acc.2 doc) := by
        by_cases himp : doc.importance > 7/10
        · simp [lifecycleHotStep, hotDbStep, hotFsStep, himp]
        · simp [lifecycleHotStep, hotDbStep, hotFsStep, himp]
      rw [List.foldl_cons, hstep, ih]
      rfl

theorem warm_fold_split (docs : List Document) :
    ∀ acc : List Document × FaissStore,
      docs.foldl lifecycleWarmStep acc
        = (docs.foldl warmDbStep acc.1, docs.foldl warmFsStep acc.2) := by
  induction docs with
  | nil =>
      intro acc
      obtain ⟨db, fs⟩ := acc
      rfl
  | cons doc rest ih =>
      intro acc
      rw [List.foldl_cons, show lifecycleWarmStep acc doc
          = (warmDbStep acc.1 doc, warmFsStep acc.2 doc) from rfl, ih]
      rfl

theorem update_fold_map (t : Document → Document → Document)
    (ht : ∀ doc r, (t doc r).id = r.id) (docs : List Document)
    (hnd : (docs.map (·.id)).Nodup) :
    ∀ db : List Document,
      docs.foldl (fun db doc => MetadataStore.update db doc.id (t doc)) db
        = db.map (fun r =>
            match docs.find? (fun doc => doc.id == r.id) with
            | some doc => t doc r
            | none => r) := by
  induction docs with
  | nil => intro db; simp
  | cons doc rest ih =>
      simp only [List.map_cons, List.nodup_cons] at hnd
      intro db
      rw [List.foldl_cons, ih hnd.2]
      rw [show MetadataStore.update db doc.id (t doc)
            = db.map (fun r => if r.id = doc.id then t doc r else r) from rfl]
      rw [List.map_map]
      apply List.map_congr_left
      intro r _
      simp only [Function.comp_apply]
      by_cases hid : r.id = doc.id
      · rw [if_pos hid]
        have hbeq : (doc.id == r.id) = true := by simp [hid]
        have hnone : rest.find? (fun d => d.id == (t doc r).id) = none := by
          apply List.find?_eq_none.mpr
          intro x hx
          simp only [beq_iff_eq]
          intro hEq
          apply hnd.1
          have hm : x.id ∈ rest.map (fun d => d.id) := List.mem_map_of_mem _ hx
          rw [hEq, ht doc r, hid] at hm
          exact hm
        rw [hnone]
        simp only [List.find?, hbeq]
      · rw [if_neg hid]
        have hbeq : (doc.id == r.id) = false := by
          simp
          exact fun hEq => hid hEq.symm
        simp only [List.find?, hbeq]

theorem fs_fold_remove_none (P : Document → Prop) [DecidablePred P]
    (docs : List Document) :
    ∀ (fs : FaissStore) (x : String), dlookup x fs.reverse_id_map = none →
      dlookup x ((docs.foldl
        (fun fs doc => if P doc then fs else (fs.remove doc.id).2)
        fs)).reverse_id_map = none := by
  induction docs with
  | nil => intro fs x h; exact h
  | cons doc rest ih =>
      intro fs x h
      rw [List.foldl_cons]
      by_cases hp : P doc
      · rw [if_pos hp]
        exact ih _ x h
      · rw [if_neg hp]
        exact ih _ x (remove_rlookup_none fs h)

theorem fs_fold_remove_hit (P : Document → Prop) [DecidablePred P]
    (docs : List Document) :
    ∀ (fs : FaissStore) (x : String),
      (∃ doc ∈ docs, ¬ P doc ∧ doc.id = x) →
      dlookup x ((docs.foldl
        (fun fs doc => if P doc then fs else (fs.remove doc.id).2)
        fs)).reverse_id_map = none := by
  induction docs with
  | nil =>
      intro fs x hex
      obtain ⟨doc, hmem, _⟩ := hex
      cases hmem
  | cons doc rest ih =>
      intro fs x hex
      rw [List.foldl_cons]
      obtain ⟨doc', hmem, hnp, hid⟩ := hex
      rcases List.mem_cons.mp hmem with rfl | hmem'
      · rw [if_neg hnp]
        subst hid
        exact fs_fold_remove_none P rest _ _ (remove_rlookup_self fs _)
      · by_cases hp : P doc
        · rw [if_pos hp]
          exact ih _ x ⟨doc', hmem', hnp, hid⟩
        · rw [if_neg hp]
          exact ih _ x ⟨doc', hmem', hnp, hid⟩

theorem fs_fold_remove_miss (P : Document → Prop) [DecidablePred P]
    (docs : List Document) :
    ∀ (fs : FaissStore) (x : String),
      (∀ doc ∈ docs, ¬ P doc → doc.id ≠ x) →
      dlookup x ((docs.foldl
        (fun fs doc => if P doc then fs else (fs.remove doc.id).2)
        fs)).reverse_id_map = dlookup x fs.reverse_id_map := by
  induction docs with
  | nil => intro fs x _; rfl
  | cons doc rest ih =>
      intro fs x hall
      rw [List.foldl_cons]
      by_cases hp : P doc
      · rw [if_pos hp]
        exact ih _ x (fun d hd => hall d (List.mem_cons.mpr (Or.inr hd)))
      · rw [if_neg hp]
        rw [ih _ x (fun d hd => hall d (List.mem_cons.mpr (Or.inr hd)))]
        exact remove_rlookup_ne fs
          (hall doc (List.mem_cons.mpr (Or.inl rfl)) hp)

theorem warm_fold_remove_none (docs : List Document) :
    ∀ (fs : FaissStore) (x : String), dlookup x fs.reverse_id_map = none →
      dlookup x ((docs.foldl warmFsStep fs)).reverse_id_map = none := by
  induction docs with
  | nil => intro fs x h; exact h
  | cons doc rest ih =>
      intro fs x h
      rw [List.foldl_cons]
      exact ih _ x (remove_rlookup_none fs h)

theorem warm_fold_remove_hit (docs : List Document) :
    ∀ (fs : FaissStore) (x : String), (∃ doc ∈ docs, doc.id = x) →
      dlookup x ((docs.foldl warmFsStep fs)).reverse_id_map = none := by
  induction docs with
  | nil =>
      intro fs x hex
      obtain ⟨doc, hmem, _⟩ := hex
      cases hmem
  | cons doc rest ih =>
      intro fs x hex
      rw [List.foldl_cons]
      obtain ⟨doc', hmem, hid⟩ := hex
      rcases List.mem_cons.mp hmem with rfl | hmem'
      · subst hid
        exact warm_fold_remove_none rest _ _ (remove_rlookup_self fs _)
      · exact ih _ x ⟨doc', hmem', hid⟩

theorem warm_fold_remove_miss (docs : List Document) :
    ∀ (fs : FaissStore) (x : String), (∀ doc ∈ docs, doc.id ≠ x) →
      dlookup x ((docs.foldl warmFsStep fs)).reverse_id_map
        = dlookup x fs.reverse_id_map := by
  induction docs with
  | nil => intro fs x _; rfl
  | cons doc rest ih =>
      intro fs x hall
      rw [List.foldl_cons,
        ih _ x (fun d hd => hall d (List.mem_cons.mpr (Or.inr hd)))]
      exact remove_rlookup_ne fs (hall doc (List.mem_cons.mpr (Or.inl rfl)))

theorem metaList_mem (db : List Document) (layer : DataLayer) (before : Int)
    (hlen : db.length ≤ 1000) (doc : Document) :
    doc ∈ MetadataStore.list db layer before 1000 ↔
      doc ∈ db ∧ doc.layer = layer ∧ doc.timestamp < before := by
  unfold MetadataStore.list
  have hsub : (db.filter (fun doc =>
      decide (doc.layer = layer) && decide (doc.timestamp < before))).length
      ≤ 1000 :=
    le_trans (List.length_filter_le _ _) hlen
  have hperm := sortDescBy_perm (fun doc : Document => (doc.created_at : ℚ))
    (db.filter (fun doc =>
      decide (doc.layer = layer) && decide (doc.timestamp < before)))
  rw [List.take_of_length_le (by rw [hperm.length_eq]; exact hsub)]
  rw [hperm.mem_iff]
  simp [List.mem_filter, and_assoc]

theorem metaList_nodup_ids (db : List Document) (layer : DataLayer)
    (before : Int) (hnd : (db.map (·.id)).Nodup) :
    ((MetadataStore.list db layer before 1000).map (·.id)).Nodup := by
  unfold MetadataStore.list
  have hfil : ((db.filter (fun doc =>
      decide (doc.layer = layer) && decide (doc.timestamp < before))).map
        (·.id)).Nodup :=
    List.Nodup.sublist ((List.filter_sublist db).map _) hnd
  have hperm := (sortDescBy_perm (fun doc : Document => (doc.created_at : ℚ))
    (db.filter (fun doc =>
      decide (doc.layer = layer) && decide (doc.timestamp < before)))).map
        (fun d : Document => d.id)
  exact List.Nodup.sublist ((List.take_sublist _ _).map _)
    (hperm.nodup_iff.mpr hfil)

theorem metaList_sub (db : List Document) (layer : DataLayer) (before : Int)
    (doc : Document) (h : doc ∈ MetadataStore.list db layer before 1000) :
    doc ∈ db ∧ doc.layer = layer ∧ doc.timestamp < before := by
  unfold MetadataStore.list at h
  have h' := (sortDescBy_perm (fun doc : Document => (doc.created_at : ℚ))
    _).mem_iff.mp (List.mem_of_mem_take h)
  simpa [List.mem_filter, and_assoc] using h'

theorem metaList_find (db : List Document) (layer : DataLayer) (before : Int)
    (hnd : (db.map (·.id)).Nodup) (hlen : db.length ≤ 1000) (r : Document)
    (hr : r ∈ db) :
    (MetadataStore.list db layer before 1000).find? (fun d => d.id == r.id)
      = if r.layer = layer ∧ r.timestamp < before then some r else none := by
  by_cases hcond : r.layer = layer ∧ r.timestamp < before
  · rw [if_pos hcond]
    have hr' : r ∈ MetadataStore.list db layer before 1000 :=
      (metaList_mem db layer before hlen r).mpr ⟨hr, hcond.1, hcond.2⟩
    have hsome : ((MetadataStore.list db layer before 1000).find?
        (fun d => d.id == r.id)).isSome :=
      List.find?_isSome.mpr ⟨r, hr', by simp⟩
    obtain ⟨b, hb⟩ := Option.isSome_iff_exists.mp hsome
    have hbmem : b ∈ MetadataStore.list db layer before 1000 :=
      List.mem_of_find?_eq_some hb
    have hbid := List.find?_some hb
    have hbdb : b ∈ db := ((metaList_mem db layer before hlen b).mp hbmem).1
    have hbr : b = r :=
      List.inj_on_of_nodup_map hnd hbdb hr (by simpa using hbid)
    rw [hb, hbr]
  · rw [if_neg hcond]
    apply List.find?_eq_none.mpr
    intro x hx
    simp only [beq_iff_eq]
    intro hEq
    have hxmem := (metaList_mem db layer before hlen x).mp hx
    have hxr : x = r := List.inj_on_of_nodup_map hnd hxmem.1 hr hEq
    rw [hxr] at hxmem
    exact hcond ⟨hxmem.2.1, hxmem.2.2⟩

theorem lifecycleHotSpec_id (now : Int) (r : Document) :
    (lifecycleHotSpec now r).id = r.id := by
  unfold lifecycleHotSpec
  by_cases h1 : hotEligible now r
  · rw [if_pos h1]
    by_cases h2 : r.importance > 7/10
    · rw [if_pos h2]
      rfl
    · rw [if_neg h2]
      rfl
  · rw [if_neg h1]

theorem hot_then_warm_eq_spec (now : Int) (r : Document) :
    (if warmEligible now (lifecycleHotSpec now r)
      then toCold (lifecycleHotSpec now r) else lifecycleHotSpec now r)
      = lifecycleSpec now r := by
  unfold lifecycleHotSpec lifecycleSpec
  by_cases h1 : hotEligible now r
  · rw [if_pos h1, if_pos h1]
    by_cases h2 : r.importance > 7/10
    · rw [if_pos h2, if_pos h2]
      by_cases h3 : r.timestamp < now - 30 * secondsPerDay
      · rw [if_pos h3]
        have hw : warmEligible now (toWarm r) := ⟨rfl, h3⟩
        rw [if_pos hw]
      · rw [if_neg h3]
        have hw : ¬ warmEligible now (toWarm r) := fun hw => h3 hw.2
        rw [if_neg hw]
    · rw [if_neg h2, if_neg h2]
      have hw : ¬ warmEligible now (toCold r) := by
        intro hw
        have hlayer := hw.1
        simp [toCold] at hlayer
      rw [if_neg hw]
  · rw [if_neg h1, if_neg h1]

theorem hot_db_fold_eq (db : List Document) (now : Int)
    (hnd : (db.map (·.id)).Nodup) (hlen : db.length ≤ 1000) :
    List.foldl hotDbStep db
        (MetadataStore.list db .hot (now - 7 * secondsPerDay) 1000)
      = db.map (lifecycleHotSpec now) := by
  have hhotnd := metaList_nodup_ids db .hot (now - 7 * secondsPerDay) hnd
  have hmap := update_fold_map
    (fun doc r => if doc.importance > 7/10 then toWarm r else toCold r)
    (fun doc r => by
      by_cases h : doc.importance > 7/10 <;> simp [h, toWarm, toCold])
    (MetadataStore.list db .hot (now - 7 * secondsPerDay) 1000) hhotnd db
  rw [show List.foldl hotDbStep db
        (MetadataStore.list db .hot (now - 7 * secondsPerDay) 1000)
      = List.foldl (fun db doc => MetadataStore.update db doc.id
          ((fun doc r => if doc.importance > 7/10 then toWarm r else toCold r)
            doc)) db
          (MetadataStore.list db .hot (now - 7 * secondsPerDay) 1000)
    from rfl, hmap]
  apply List.map_congr_left
  intro r hr
  rw [metaList_find db .hot (now - 7 * secondsPerDay) hnd hlen r hr]
  by_cases hcond : r.layer = DataLayer.hot ∧
      r.timestamp < now - 7 * secondsPerDay
  · rw [if_pos hcond]
    show (if r.importance > 7/10 then toWarm r else toCold r)
      = lifecycleHotSpec now r
    rw [lifecycleHotSpec, if_pos hcond]
  · rw [if_neg hcond]
    show r = lifecycleHotSpec now r
    rw [lifecycleHotSpec, if_neg hcond]

theorem warm_db_fold_eq (db1 : List Document) (now : Int)
    (hnd1 : (db1.map (·.id)).Nodup) (hlen1 : db1.length ≤ 1000) :
    List.foldl warmDbStep db1
        (MetadataStore.list db1 .warm (now - 30 * secondsPerDay) 1000)
      = db1.map (fun r => if warmEligible now r then toCold r else r) := by
  have hwnd := metaList_nodup_ids db1 .warm (now - 30 * secondsPerDay) hnd1
  have hmap := update_fold_map (fun _doc r => toCold r) (fun _doc r => rfl)
    (MetadataStore.list db1 .warm (now - 30 * secondsPerDay) 1000) hwnd db1
  rw [show List.foldl warmDbStep db1
        (MetadataStore.list db1 .warm (now - 30 * secondsPerDay) 1000)
      = List.foldl (fun db doc => MetadataStore.update db doc.id
          ((fun _doc r => toCold r) doc)) db1
          (MetadataStore.list db1 .warm (now - 30 * secondsPerDay) 1000)
    from rfl, hmap]
  apply List.map_congr_left
  intro r hr
  rw [metaList_find db1 .warm (now - 30 * secondsPerDay) hnd1 hlen1 r hr]
  by_cases hcond : r.layer = DataLayer.warm ∧
      r.timestamp < now - 30 * secondsPerDay
  · rw [if_pos hcond]
    show toCold r = if warmEligible now r then toCold r else r
    rw [if_pos hcond]
  · rw [if_neg hcond]
    show r = if warmEligible now r then toCold r else r
    rw [if_neg hcond]

theorem map_hotSpec_ids (db : List Document) (now : Int) :
    (db.map (lifecycleHotSpec now)).map (·.id) = db.map (·.id) := by
  rw [List.map_map]
  exact List.map_congr_left (fun r _ => lifecycleHotSpec_id now r)

theorem lifecycle_db_spec (db : List Document) (faiss : FaissStore)
    (now : Int) (hnd : (db.map (·.id)).Nodup) (hlen : db.length ≤ 1000) :
    (lifecycle_management db faiss now).1 = db.map (lifecycleSpec now) := by
  have hrun : (lifecycle_management db faiss now).1
      = List.foldl warmDbStep
          (List.foldl hotDbStep db
            (MetadataStore.list db .hot (now - 7 * secondsPerDay) 1000))
          (MetadataStore.list
            (List.foldl hotDbStep db
              (MetadataStore.list db .hot (now - 7 * secondsPerDay) 1000))
            .warm (now - 30 * secondsPerDay) 1000) := by
    show (List.foldl lifecycleWarmStep
        (List.foldl lifecycleHotStep (db, faiss)
          (MetadataStore.list db .hot (now - 7 * secondsPerDay) 1000))
        (MetadataStore.list
          (List.foldl lifecycleHotStep (db, faiss)
            (MetadataStore.list db .hot (now - 7 * secondsPerDay) 1000)).1
          .warm (now - 30 * secondsPerDay) 1000)).1 = _
    rw [hot_fold_split, warm_fold_split]
  rw [hrun, hot_db_fold_eq db now hnd hlen]
  have hnd1 : ((db.map (lifecycleHotSpec now)).map (·.id)).Nodup := by
    rw [map_hotSpec_ids]
    exact hnd
  have hlen1 : (db.map (lifecycleHotSpec now)).length ≤ 1000 := by
    simpa using hlen
  rw [warm_db_fold_eq (db.map (lifecycleHotSpec now)) now hnd1 hlen1,
    List.map_map]
  apply List.map_congr_left
  intro r _
  exact hot_then_warm_eq_spec now r

theorem lifecycle_faiss_run (db : List Document) (faiss : FaissStore)
    (now : Int) :
    (lifecycle_management db faiss now).2
      = List.foldl warmFsStep
          (List.foldl hotFsStep faiss
            (MetadataStore.list db .hot (now - 7 * secondsPerDay) 1000))
          (MetadataStore.list
            (List.foldl hotDbStep db
              (MetadataStore.list db .hot (now - 7 * secondsPerDay) 1000))
            .warm (now - 30 * secondsPerDay) 1000) := by
  show (List.foldl lifecycleWarmStep
      (List.foldl lifecycleHotStep (db, faiss)
        (MetadataStore.list db .hot (now - 7 * secondsPerDay) 1000))
      (MetadataStore.list
        (List.foldl lifecycleHotStep (db, faiss)
          (MetadataStore.list db .hot (now - 7 * secondsPerDay) 1000)).1
        .warm (now - 30 * secondsPerDay) 1000)).2 = _
  rw [hot_fold_split, warm_fold_split]

theorem lifecycle_faiss_removed (db : List Document) (faiss : FaissStore)
    (now : Int) (hnd : (db.map (·.id)).Nodup) (hlen : db.length ≤ 1000) :
    ∀ r ∈ db, RemovedNow now r →
      dlookup r.id (lifecycle_management db faiss now).2.reverse_id_map
        = none := by
  have hlen1 : (db.map (lifecycleHotSpec now)).length ≤ 1000 := by
    simpa using hlen
  intro r hr hrem
  rw [lifecycle_faiss_run db faiss now, hot_db_fold_eq db now hnd hlen]
  rcases hrem with ⟨hhot, hside⟩ | hwarm
  · by_cases himp : r.importance > 7/10
    · have hts : r.timestamp < now - 30 * secondsPerDay := by
        rcases hside with himp' | hts
        · exact absurd himp himp'
        · exact hts
      apply warm_fold_remove_hit
      refine ⟨lifecycleHotSpec now r, ?_, lifecycleHotSpec_id now r⟩
      apply (metaList_mem _ .warm _ hlen1 _).mpr
      refine ⟨List.mem_map_of_mem _ hr, ?_, ?_⟩
      · show (lifecycleHotSpec now r).layer = DataLayer.warm
        rw [lifecycleHotSpec, if_pos hhot, if_pos himp]
        rfl
      · show (lifecycleHotSpec now r).timestamp < now - 30 * secondsPerDay
        rw [lifecycleHotSpec, if_pos hhot, if_pos himp]
        exact hts
    · apply warm_fold_remove_none
      exact fs_fold_remove_hit (fun doc => doc.importance > 7/10) _ faiss r.id
        ⟨r, (metaList_mem db .hot _ hlen r).mpr ⟨hr, hhot.1, hhot.2⟩,
          himp, rfl⟩
  · apply warm_fold_remove_hit
    refine ⟨lifecycleHotSpec now r, ?_, lifecycleHotSpec_id now r⟩
    have hnothot : ¬ hotEligible now r := by
      intro h
      have hclash : DataLayer.hot = DataLayer.warm := h.1.symm.trans hwarm.1
      simp at hclash
    have hid : lifecycleHotSpec now r = r := by
      rw [lifecycleHotSpec, if_neg hnothot]
    apply (metaList_mem _ .warm _ hlen1 _).mpr
    refine ⟨List.mem_map_of_mem _ hr, ?_, ?_⟩
    · rw [hid]
      exact hwarm.1
    · rw [hid]
      exact hwarm.2

theorem lifecycle_faiss_preserved (db : List Document) (faiss : FaissStore)
    (now : Int) (hnd : (db.map (·.id)).Nodup) (hlen : db.length ≤ 1000) :
    ∀ x : String, (∀ r ∈ db, r.id = x → ¬ RemovedNow now r) →
      dlookup x (lifecycle_management db faiss now).2.reverse_id_map
        = dlookup x faiss.reverse_id_map := by
  intro x hx
  rw [lifecycle_faiss_run db faiss now, hot_db_fold_eq db now hnd hlen]
  have hmiss2 : ∀ doc ∈ MetadataStore.list (db.map (lifecycleHotSpec now))
      .warm (now - 30 * secondsPerDay) 1000, doc.id ≠ x := by
    intro doc' hdoc' hEq
    have hmem' := metaList_sub _ .warm _ doc' hdoc'
    obtain ⟨r, hr, hrEq⟩ := List.mem_map.mp hmem'.1
    have hrid : r.id = x := by
      rw [← lifecycleHotSpec_id now r, hrEq]
      exact hEq
    apply hx r hr hrid
    by_cases h1 : hotEligible now r
    · by_cases h2 : r.importance > 7/10
      · left
        refine ⟨h1, Or.inr ?_⟩
        have hts : (lifecycleHotSpec now r).timestamp = r.timestamp := by
          rw [lifecycleHotSpec, if_pos h1, if_pos h2]
          rfl
        rw [hrEq] at hts
        rw [← hts]
        exact hmem'.2.2
      · exfalso
        have hlayer : (lifecycleHotSpec now r).layer = DataLayer.cold := by
          rw [lifecycleHotSpec, if_pos h1, if_neg h2]
          rfl
        rw [hrEq] at hlayer
        rw [hlayer] at hmem'
        have := hmem'.2.1
        simp at this
    · right
      have hid : lifecycleHotSpec now r = r := by
        rw [lifecycleHotSpec, if_neg h1]
      rw [hid] at hrEq
      rw [hrEq]
      exact ⟨hmem'.2.1, hmem'.2.2⟩
  rw [warm_fold_remove_miss _ _ _ hmiss2]
  have hmiss1 : ∀ doc ∈ MetadataStore.list db .hot
      (now - 7 * secondsPerDay) 1000, ¬ (doc.importance > 7/10) →
      doc.id ≠ x := by
    intro doc hdoc hnp hEq
    have hmem := metaList_sub db .hot _ doc hdoc
    exact hx doc hmem.1 hEq (Or.inl ⟨⟨hmem.2.1, hmem.2.2⟩, Or.inl hnp⟩)
  exact fs_fold_remove_miss (fun doc => doc.importance > 7/10) _ faiss x hmiss1

/-- C3 counterexample: a HOT doc past the 7-day threshold with importance
0.9 (above the cutoff) but 31 days old does NOT end the run as WARM with its
vector kept — the first scan demotes it to WARM and the same run's second
scan then finds it WARM and 30+ days old, demoting it to COLD and removing
its vector entry. -/
theorem lifecycle_cascade_cex :
    cexDoc.layer = DataLayer.hot ∧
    cexDoc.importance > 7/10 ∧
    cexDoc.timestamp < 100 * secondsPerDay - 7 * secondsPerDay ∧
    (lifecycle_management [cexDoc] cexFaiss (100 * secondsPerDay)).1
      = [{ cexDoc with layer := .cold, stored_in_faiss := false }] ∧
    dlookup "a" (lifecycle_management [cexDoc] cexFaiss
        (100 * secondsPerDay)).2.reverse_id_map = none := by
  refine ⟨rfl, by norm_num [cexDoc], by norm_num [cexDoc, secondsPerDay],
    ?_, ?_⟩ <;>
    norm_num +decide [lifecycle_management, MetadataStore.list,
      MetadataStore.update, lifecycleHotStep, lifecycleWarmStep, sortDescBy,
      insertDesc, toWarm, toCold, FaissStore.remove, FaissStore.add,
      FaissStore.empty, dinsert, dlookup, derase, secondsPerDay, cexDoc,
      cexFaiss, dvalues]

/-- C3 (amended): over a metadata table of at most 1000 rows with distinct
ids (so each batch scan captures every eligible row), one
`lifecycle_management` run rewrites every row `r` to `lifecycleSpec now r`:
an over-age HOT doc with importance above 0.7 becomes WARM — unless it is
also older than the 30-day threshold, in which case the same run's WARM
scan demotes it straight to COLD with its vector entry removed and
`stored_in_faiss = false`; an over-age HOT doc with importance not above
0.7 becomes COLD with its vector removed; an over-age WARM doc becomes COLD
with its vector removed; and a doc's faiss entry is removed exactly when
the run demotes it to COLD (`RemovedNow`), every other vector entry being
left untouched. -/
theorem lifecycle_management_transitions (db : List Document)
    (faiss : FaissStore) (now : Int) (hnd : (db.map (·.id)).Nodup)
    (hlen : db.length ≤ 1000) :
    (lifecycle_management db faiss now).1 = db.map (lifecycleSpec now) ∧
    (∀ r ∈ db, RemovedNow now r →
       dlookup r.id (lifecycle_management db faiss now).2.reverse_id_map
         = none) ∧
    (∀ x : String, (∀ r ∈ db, r.id = x → ¬ RemovedNow now r) →
       dlookup x (lifecycle_management db faiss now).2.reverse_id_map
         = dlookup x faiss.reverse_id_map) :=
  ⟨lifecycle_db_spec db faiss now hnd hlen,
   lifecycle_faiss_removed db faiss now hnd hlen,
   lifecycle_faiss_preserved db faiss now hnd hlen⟩

theorem lifecycle_management_transitions_witness :
    (([witDoc] : List Document).map (·.id)).Nodup ∧
    ([witDoc] : List Document).length ≤ 1000 ∧
    ((lifecycle_management [witDoc] (FaissStore.empty.add [1] "w").2
        (100 * secondsPerDay)).1
        = [witDoc].map (lifecycleSpec (100 * secondsPerDay)) ∧
     (∀ r ∈ ([witDoc] : List Document),
        RemovedNow (100 * secondsPerDay) r →
        dlookup r.id (lifecycle_management [witDoc]
          (FaissStore.empty.add [1] "w").2
          (100 * secondsPerDay)).2.reverse_id_map = none) ∧
     (∀ x : String, (∀ r ∈ ([witDoc] : List Document), r.id = x →
          ¬ RemovedNow (100 * secondsPerDay) r) →
        dlookup x (lifecycle_management [witDoc]
          (FaissStore.empty.add [1] "w").2
          (100 * secondsPerDay)).2.reverse_id_map
          = dlookup x ((FaissStore.empty.add [1] "w").2).reverse_id_map)) :=
  ⟨by decide, by decide,
   lifecycle_management_transitions [witDoc] (FaissStore.empty.add [1] "w").2
     (100 * secondsPerDay) (by decide) (by decide)⟩

end AME
